import Mathlib

/-
Verification development for the Russian word-calculator `calc_ru.py`.

The Python source is shallowly embedded below:
  * Python `Fraction` values become `ℚ` (both are always reduced, with a
    positive denominator);
  * Python module-level dictionaries become association lists
    `List (String × _)` queried with `List.lookup`;
  * Python exceptions (`ParseError`, `MathError`, and the `IndexError` that
    can escape from `parse_simple_number_words` when its `start_index` is past
    the end of the token list) become an `Except CalcErr _` result type;
  * Python `while` loops become fuel-based structural recursions, with the
    fuel chosen large enough that it can never be exhausted (the loop variable
    bounds the iteration count), so that every definition stays computable by
    `rfl`/`decide`;
  * integer `//` and `%` are `Int.fdiv`/`Int.emod` (Python floor division),
    `int(...)` on a `Fraction` is truncation toward zero (`Int.tdiv`).
Floating-point escapes of the source (trigonometric functions and non-integer
exponents) are deliberately left as opaque placeholder values: no theorem
below depends on them.
-/

namespace CalcRu

/-- Error taxonomy of the calculator: `ParseError` and `MathError` from the
source, plus `index` for Python's built-in `IndexError` which can escape from
`parse_simple_number_words` when the error message indexes past the end of the
token list. -/
inductive CalcErr where
  | parse (msg : String)
  | math (msg : String)
  | index (msg : String)
deriving DecidableEq

/-- `SIMPLE_NUM` table from the source: base numeral words 0–19. -/
def SIMPLE_NUM : List (String × Nat) :=
  [("ноль", 0), ("один", 1), ("одна", 1), ("два", 2), ("две", 2), ("три", 3),
   ("четыре", 4), ("пять", 5), ("шесть", 6), ("семь", 7), ("восемь", 8),
   ("девять", 9), ("десять", 10), ("одиннадцать", 11), ("двенадцать", 12),
   ("тринадцать", 13), ("четырнадцать", 14), ("пятнадцать", 15),
   ("шестнадцать", 16), ("семнадцать", 17), ("восемнадцать", 18),
   ("девятнадцать", 19)]

/-- `TENS` table from the source: tens words 20–90. -/
def TENS : List (String × Nat) :=
  [("двадцать", 20), ("тридцать", 30), ("сорок", 40), ("пятьдесят", 50),
   ("шестьдесят", 60), ("семьдесят", 70), ("восемьдесят", 80),
   ("девяносто", 90)]

/-- `HUNDREDS` table from the source: hundreds words 100–900. -/
def HUNDREDS : List (String × Nat) :=
  [("сто", 100), ("двести", 200), ("триста", 300), ("четыреста", 400),
   ("пятьсот", 500), ("шестьсот", 600), ("семьсот", 700), ("восемьсот", 800),
   ("девятьсот", 900)]

/-- `SCALES` table from the source: scale words (thousands, millions). -/
def SCALES : List (String × Nat) :=
  [("тысяча", 10 ^ 3), ("тысячи", 10 ^ 3), ("тысяч", 10 ^ 3),
   ("миллион", 10 ^ 6), ("миллиона", 10 ^ 6), ("миллионов", 10 ^ 6)]

/-- `DECIMAL_DENOMINATORS` table from the source. -/
def DECIMAL_DENOMINATORS : List (String × Nat) :=
  [("сотая", 100), ("сотых", 100), ("сотые", 100),
   ("тысячная", 1000), ("тысячных", 1000), ("тысячные", 1000)]

/-- `ORDINAL_DENOMINATORS` table from the source. -/
def ORDINAL_DENOMINATORS : List (String × Nat) :=
  [("вторая", 2), ("вторую", 2), ("второй", 2), ("вторых", 2),
   ("третья", 3), ("третью", 3), ("третьих", 3),
   ("четвертая", 4), ("четвертую", 4), ("четвертых", 4),
   ("пятая", 5), ("пятую", 5), ("пятых", 5),
   ("шестая", 6), ("шестую", 6), ("шестых", 6),
   ("седьмая", 7), ("седьмую", 7), ("седьмых", 7),
   ("восьмая", 8), ("восьмую", 8), ("восьмых", 8),
   ("девятая", 9), ("девятую", 9), ("девятых", 9),
   ("десятая", 10), ("десятую", 10), ("десятых", 10),
   ("сотая", 100), ("сотых", 100), ("сотые", 100),
   ("тысячная", 1000), ("тысячных", 1000), ("тысячные", 1000)]

/-- The loop body of `parse_simple_number_words`: walk the word list, adding
digit/tens/hundreds values into the running `current` block, folding `current`
into `total` at scale words, and stopping at the first unrecognized word.
Returns `(total + current, consumed)`. -/
def numParseGo : List String → Nat → Nat → Nat → Nat × Nat
  | [], total, current, consumed => (total + current, consumed)
  | w :: ws, total, current, consumed =>
    match SIMPLE_NUM.lookup w with
    | some v => numParseGo ws total (current + v) (consumed + 1)
    | none =>
      match TENS.lookup w with
      | some v => numParseGo ws total (current + v) (consumed + 1)
      | none =>
        match HUNDREDS.lookup w with
        | some v => numParseGo ws total (current + v) (consumed + 1)
        | none =>
          match SCALES.lookup w with
          | some sc =>
            numParseGo ws (total + (if current = 0 then 1 else current) * sc) 0
              (consumed + 1)
          | none => (total + current, consumed)

/-- `parse_simple_number_words` from the source.  On zero consumed words the
source raises `ParseError` with a message interpolating `tokens[start_index]`;
when `start_index` is past the end of the list that very interpolation raises
`IndexError` instead, which we model with `CalcErr.index`. -/
def parse_simple_number_words (tokens : List String) (start : Nat) :
    Except CalcErr (Nat × Nat) :=
  let r := numParseGo (tokens.drop start) 0 0 0
  if r.2 = 0 then
    if start < tokens.length then
      .error (.parse ("Ожидалось число, но найдено: " ++ tokens.getD start ""))
    else .error (.index "list index out of range")
  else .ok (r.1, start + r.2 - 1)

/-- `ONES` table of `int_to_words` (number → word, 0–19). -/
def ONES (n : Nat) : String :=
  match n with
  | 0 => "ноль" | 1 => "один" | 2 => "два" | 3 => "три" | 4 => "четыре"
  | 5 => "пять" | 6 => "шесть" | 7 => "семь" | 8 => "восемь" | 9 => "девять"
  | 10 => "десять" | 11 => "одиннадцать" | 12 => "двенадцать"
  | 13 => "тринадцать" | 14 => "четырнадцать" | 15 => "пятнадцать"
  | 16 => "шестнадцать" | 17 => "семнадцать" | 18 => "восемнадцать"
  | 19 => "девятнадцать" | _ => ""

/-- `TENS_WORDS` table of `int_to_words` (number → word, 20–90). -/
def TENS_WORDS (n : Nat) : String :=
  match n with
  | 20 => "двадцать" | 30 => "тридцать" | 40 => "сорок" | 50 => "пятьдесят"
  | 60 => "шестьдесят" | 70 => "семьдесят" | 80 => "восемьдесят"
  | 90 => "девяносто" | _ => ""

/-- `HUND_WORDS` table of `int_to_words` (number → word, 100–900). -/
def HUND_WORDS (n : Nat) : String :=
  match n with
  | 100 => "сто" | 200 => "двести" | 300 => "триста" | 400 => "четыреста"
  | 500 => "пятьсот" | 600 => "шестьсот" | 700 => "семьсот"
  | 800 => "восемьсот" | 900 => "девятьсот" | _ => ""

/-- Remainder after the hundreds step of `_hundreds_to_words`. -/
def hundRem (n : Nat) : Nat := if n ≥ 100 then n % 100 else n

/-- Remainder after the tens step of `_hundreds_to_words`. -/
def tensRem (n : Nat) : Nat := if hundRem n ≥ 20 then hundRem n % 10 else hundRem n

/-- `_hundreds_to_words` from the source, producing the list of words that the
source joins with single spaces (numbers 1–999; `[]` for 0). -/
def hundreds_words (n : Nat) : List String :=
  (if n ≥ 100 then [HUND_WORDS (n / 100 * 100)] else []) ++
  (if hundRem n ≥ 20 then [TENS_WORDS (hundRem n / 10 * 10)] else []) ++
  (if tensRem n > 0 then [ONES (tensRem n)] else [])

/-- `_plural_thousand` from the source (simplified Slavic pluralization). -/
def plural_thousand (n : Nat) : String :=
  if 11 ≤ n % 100 ∧ n % 100 ≤ 14 then "тысяч"
  else if n % 10 = 1 then "тысяча"
  else if 2 ≤ n % 10 ∧ n % 10 ≤ 4 then "тысячи"
  else "тысяч"

/-- Recursive body of `int_to_words` for a non-negative integer, producing the
flat list of words that the source joins with single spaces.  The fuel only
feeds the millions recursion (`int_to_words(millions)`), which strictly
decreases its argument, so `fuel = n + 1` can never run out. -/
def int_words_go : Nat → Nat → List String
  | _, 0 => ["ноль"]
  | 0, _ => []
  | fuel + 1, n =>
    (if n ≥ 10 ^ 6 then
        int_words_go fuel (n / 10 ^ 6) ++
          [("миллион" ++
             (if n / 10 ^ 6 % 10 ≠ 1 ∨ n / 10 ^ 6 % 100 = 11 then "ов" else ""))]
      else []) ++
    (let n1 := if n ≥ 10 ^ 6 then n % 10 ^ 6 else n
     (if n1 ≥ 1000 then hundreds_words (n1 / 1000) ++ [plural_thousand (n1 / 1000)]
      else []) ++
     (let n2 := if n1 ≥ 1000 then n1 % 1000 else n1
      if n2 > 0 then hundreds_words n2 else []))

/-- Word list of `int_to_words n` for `n : ℕ`. -/
def int_words_list (n : Nat) : List String := int_words_go (n + 1) n

/-- `int_to_words` from the source on non-negative integers: the word list
joined with single spaces. -/
def int_to_words_nat (n : Nat) : String :=
  String.intercalate " " (int_words_list n)

/-- `int_to_words` from the source on `ℤ` (negative numbers get the prefix
"минус ", mirroring the source's recursive call on `-n`). -/
def int_to_words (n : Int) : String :=
  if n < 0 then "минус " ++ int_to_words_nat (-n).toNat
  else int_to_words_nat n.toNat

/-- The endings tuple of `parse_fractional_descriptor` (the source lists
"их" twice; kept verbatim). -/
def ENDINGS : List String :=
  ["ых", "ая", "ое", "их", "ую", "ий", "ой", "ый", "их"]

/-- `base.endswith(e)` on character lists (kernel-reducible, unlike the
byte-position-based core `String.endsWith`). -/
def strEndsWith (base e : String) : Bool := e.data.isSuffixOf base.data

/-- `base[:-n]` (drop the last `n` characters; Python slicing counts
characters, as does `String.data`). -/
def strDropRight (base : String) (n : Nat) : String :=
  ⟨base.data.take (base.data.length - n)⟩

/-- The suffix-stripping fallback loop of `parse_fractional_descriptor`:
first ending whose removal leaves a `SIMPLE_NUM` word. -/
def stripEndingLookup (base : String) : Option Nat :=
  (ENDINGS.filterMap (fun e =>
    if strEndsWith base e then
      SIMPLE_NUM.lookup (strDropRight base e.data.length)
    else none)).head?

/-- `parse_fractional_descriptor` from the source (exceptions propagate as
explicit `error` matches). -/
def parse_fractional_descriptor (tokens : List String) (start : Nat) :
    Except CalcErr (ℚ × Nat) :=
  match parse_simple_number_words tokens start with
  | .error e => .error e
  | .ok r =>
    if r.2 + 1 ≥ tokens.length then
      .error (.parse "Ожидается слово-разряд (сотая или тысячная) после числителя дроби")
    else
      match DECIMAL_DENOMINATORS.lookup (tokens.getD (r.2 + 1) "") with
      | some d => .ok (mkRat r.1 d, r.2 + 1)
      | none =>
        match ORDINAL_DENOMINATORS.lookup (tokens.getD (r.2 + 1) "") with
        | some d => .ok (mkRat r.1 d, r.2 + 1)
        | none =>
          match SIMPLE_NUM.lookup (tokens.getD (r.2 + 1) "") with
          | some d => .ok (mkRat r.1 d, r.2 + 1)
          | none =>
            match stripEndingLookup (tokens.getD (r.2 + 1) "") with
            | some d => .ok (mkRat r.1 d, r.2 + 1)
            | none =>
              .error (.parse ("Неизвестный тип дробной части: " ++
                tokens.getD (r.2 + 1) ""))

/-- `parse_mixed_or_decimal_number` from the source. -/
def parse_mixed_or_decimal_number (tokens : List String) (start : Nat) :
    Except CalcErr (ℚ × Nat) :=
  match parse_simple_number_words tokens start with
  | .error e => .error e
  | .ok r =>
    if r.2 + 1 < tokens.length ∧ tokens.getD (r.2 + 1) "" = "и" then
      match parse_fractional_descriptor tokens (r.2 + 1 + 1) with
      | .error e => .error e
      | .ok f => .ok ((r.1 : ℚ) + f.1, f.2)
    else .ok ((r.1 : ℚ), r.2)

/-- The 2-stripping loop of `is_terminating_decimal` (fuel = the number
itself, enough since each division at least halves it). -/
def stripTwosGo : Nat → Nat → Nat
  | 0, d => d
  | fuel + 1, d => if d % 2 = 0 ∧ d ≠ 0 then stripTwosGo fuel (d / 2) else d

/-- The 5-stripping loop of `is_terminating_decimal`. -/
def stripFivesGo : Nat → Nat → Nat
  | 0, d => d
  | fuel + 1, d => if d % 5 = 0 ∧ d ≠ 0 then stripFivesGo fuel (d / 5) else d

/-- `is_terminating_decimal` from the source: the denominator contains no
prime factors other than 2 and 5.  (The `d ≠ 0` guards in the loops are
redundant for actual denominators, which are positive.) -/
def is_terminating_decimal (fr : ℚ) : Bool :=
  stripFivesGo fr.den (stripTwosGo fr.den fr.den) = 1

/-- The long-division loop of `fraction_to_decimal_with_period`: remaining
budget (`bound - pos`), current remainder, positions of already-seen
remainders, digits produced so far.  Returns the digit list and the position
where the repeating cycle starts (if one was detected). -/
def periodGo (den : Nat) : Nat → Nat → List (Nat × Nat) → List Nat →
    List Nat × Option Nat
  | 0, _, _, ds => (ds, none)
  | fuel + 1, rem, poss, ds =>
    if rem = 0 then (ds, none)
    else
      match poss.lookup rem with
      | some start => (ds, some start)
      | none =>
        periodGo den fuel (rem * 10 % den) (poss ++ [(rem, ds.length)])
          (ds ++ [rem * 10 / den])

/-- Digit list rendered as a string of decimal digits. -/
def digitsStr (ds : List Nat) : String :=
  String.join (ds.map (fun d => toString d))

/-- `fraction_to_decimal_with_period` from the source: returns the
non-repeating part (sign, integer part, and a dot plus non-repeating digits
when present) and the repeating digit cycle, if any. -/
def fraction_to_decimal_with_period (fr : ℚ) (maxNonrepeat maxPeriod : Nat) :
    String × Option String :=
  let sign := if fr < 0 then "-" else ""
  let fa := |fr|
  let integerPart := fa.num.toNat / fa.den
  let remainder := fa.num.toNat % fa.den
  if remainder = 0 then (sign ++ toString integerPart, none)
  else
    let r := periodGo fa.den (maxNonrepeat + maxPeriod + 5) remainder [] []
    match r.2 with
    | none => (sign ++ toString integerPart ++ "." ++ digitsStr r.1, none)
    | some st =>
      let nonrep := digitsStr (r.1.take st)
      let rep := digitsStr (r.1.drop st)
      ((if nonrep ≠ "" then sign ++ toString integerPart ++ "." ++ nonrep
        else sign ++ toString integerPart), some rep)

/-- Python `int(s)` for the digit strings produced by the renderer (a plain
base-10 fold over the characters; the renderer only ever applies it to
strings of decimal digits). -/
def pyStrNat (s : String) : Nat :=
  s.data.foldl (fun acc c => acc * 10 + (c.toNat - '0'.toNat)) 0

/-- `digits_to_words` from the source: a digit string read as one number. -/
def digits_to_words (digits : String) : String :=
  if digits = "" then "ноль" else int_to_words_nat (pyStrNat digits)

/-- `ordinal_name_for_denominator` from the source. -/
def ordinal_name_for_denominator (den : Nat) : String :=
  if den = 2 then "вторых"
  else if den = 3 then "третьих"
  else if den = 4 then "четвертых"
  else if den = 5 then "пятых"
  else if den = 7 then "седьмых"
  else if den = 9 then "девятых"
  else int_to_words_nat den ++ "-ых"

/-- `fraction_to_words` from the source. -/
def fraction_to_words (fr : ℚ) : String :=
  int_to_words fr.num ++ " " ++ ordinal_name_for_denominator fr.den

/-- The periodic-decimal branch of `fraction_to_mixed_and_words` (everything
after the sign prefix): `some` when a repeating cycle was found and rendered,
`none` when control falls through to the generic mixed-fraction form. -/
def periodSuffix (fr : ℚ) (wholeI : Int) : Option String :=
  if is_terminating_decimal fr then none
  else
    let pr := fraction_to_decimal_with_period fr 10 6
    match pr.2 with
    | some period =>
      if period ≠ "" then
        let periodTrim : String := ⟨period.data.take 4⟩
        let nonrep : String :=
          if pr.1.data.contains '.' then
            ⟨(pr.1.data.dropWhile (fun c => c ≠ '.')).tail⟩
          else ""
        let nonrepWords :=
          if nonrep ≠ "" then int_to_words_nat (pyStrNat nonrep) else "ноль"
        let periodWords := digits_to_words periodTrim
        some (if wholeI = 0 then
                "ноль и " ++ nonrepWords ++ " и " ++ periodWords ++ " в периоде"
              else
                int_to_words wholeI ++ " и " ++ nonrepWords ++ " и " ++
                  periodWords ++ " в периоде")
      else none
    | none => none

/-- Body of `fraction_to_mixed_and_words` after the sign has been split off:
`sp` is the sign prefix ("минус " or ""), `fr` the absolute value. -/
def renderCore (sp : String) (fr : ℚ) : String :=
  let wholeI : Int := fr.num.fdiv fr.den
  let fracQ : ℚ := mkRat (fr.num.emod fr.den) fr.den
  if fracQ = 0 then
    if wholeI ≠ 0 then sp ++ int_to_words wholeI else sp ++ "ноль"
  else if fracQ.den = 100 ∨ fracQ.den = 1000 ∨ fracQ.den = 10 ^ 6 then
    let dw :=
      if fracQ.den = 100 then "сотых"
      else if fracQ.den = 1000 then "тысячных" else "миллионных"
    if wholeI = 0 then
      sp ++ "ноль и " ++ int_to_words fracQ.num ++ " " ++ dw
    else
      sp ++ int_to_words wholeI ++ " и " ++ int_to_words fracQ.num ++ " " ++ dw
  else
    match periodSuffix fr wholeI with
    | some s => sp ++ s
    | none =>
      if wholeI = 0 then sp ++ fraction_to_words fracQ
      else sp ++ int_to_words wholeI ++ " и " ++ fraction_to_words fracQ

/-- `fraction_to_mixed_and_words` from the source: sign handling then the
shared body. -/
def fraction_to_mixed_and_words (fr : ℚ) : String :=
  if fr < 0 then renderCore "минус " (-fr) else renderCore "" fr

/-- Raw tokens of `tokenize_expression` before post-processing: a recognized
multi-word phrase, or a plain word. -/
inductive Raw where
  | phrase (s : String)
  | word (s : String)
deriving DecidableEq

/-- Final tokens of `tokenize_expression` (plus `num`, injected by `calc`'s
"пи" substitution before the shunting yard runs). -/
inductive Tok where
  | word (s : String)
  | op (s : String)
  | func (s : String)
  | comb (s : String)
  | lparen
  | rparen
  | num (q : ℚ)
deriving DecidableEq

/-- Splitter for `wordsOfStr`: walk the characters, accumulating the current
word (reversed) and emitting it at whitespace. -/
def wordsAux : List Char → List Char → List String
  | [], cur => if cur.isEmpty then [] else [String.mk cur.reverse]
  | c :: cs, cur =>
    if c.isWhitespace then
      if cur.isEmpty then wordsAux cs []
      else String.mk cur.reverse :: wordsAux cs []
    else wordsAux cs (c :: cur)

/-- Splitting a string into its whitespace-separated words (the source
collapses whitespace runs with a regex, strips, and splits on single
spaces — the same non-empty word list; also used for `phrase.split(" ")`,
whose phrases contain single spaces only). -/
def wordsOfStr (s : String) : List String := wordsAux s.data []

/-- `PHRASE_TOKENS` from the source: multi-word phrases first, order
matters. -/
def PHRASE_TOKENS : List String :=
  ["остаток от деления", "скобка открывается", "скобка закрывается",
   "в степени", "синус от", "косинус от", "тангенс от",
   "перестановок из", "размещений из", "сочетаний из",
   "плюс", "минус", "умножить", "разделить"]

/-- The `for phrase in PHRASE_TOKENS` loop of the tokenizer: the first phrase
whose word list is a prefix of the remaining words, with its word count. -/
def phraseLoop : List String → List String → Option (String × Nat)
  | [], _ => none
  | p :: ps, ws =>
    if (wordsOfStr p).isPrefixOf ws then some (p, (wordsOfStr p).length)
    else phraseLoop ps ws

/-- One scanning step of the tokenizer loop: the phrase loop, followed by the
function / spoken-bracket / combinatorics two-word checks, else a single
plain word.  Returns the raw token and the number of words consumed. -/
def matchStep (ws : List String) : Raw × Nat :=
  match phraseLoop PHRASE_TOKENS ws with
  | some r => (.phrase r.1, r.2)
  | none =>
    match ws with
    | w1 :: w2 :: _ =>
      if (w1 = "синус" ∨ w1 = "косинус" ∨ w1 = "тангенс") ∧ w2 = "от" then
        (.phrase (w1 ++ " от"), 2)
      else if w1 = "скобка" ∧ w2 = "открывается" then
        (.phrase "скобка открывается", 2)
      else if w1 = "скобка" ∧ w2 = "закрывается" then
        (.phrase "скобка закрывается", 2)
      else if (w1 = "перестановок" ∨ w1 = "размещений" ∨ w1 = "сочетаний") ∧
          w2 = "из" then
        (.phrase (w1 ++ " из"), 2)
      else (.word w1, 1)
    | w1 :: [] => (.word w1, 1)
    | [] => (.word "", 1)

/-- The tokenizer's scanning loop (fuel = number of words left; each step
consumes at least one word, so `ws.length` fuel always suffices). -/
def tokGo : Nat → List String → List Raw
  | 0, _ => []
  | _, [] => []
  | fuel + 1, w :: ws =>
    let r := matchStep (w :: ws)
    r.1 :: tokGo fuel ((w :: ws).drop r.2)

/-- Raw token stream of a word list. -/
def tokenizeRaw (ws : List String) : List Raw := tokGo ws.length ws

/-- `OPERATORS` table from the source, phrase → symbol. -/
def OPERATORS_SYM : List (String × String) :=
  [("плюс", "+"), ("минус", "-"), ("умножить", "*"), ("разделить", "/"),
   ("остаток от деления", "%"), ("в степени", "^")]

/-- `FILLER_WORDS` from the source. -/
def FILLER_WORDS : List String := ["на"]

/-- Post-processing of one raw token (`tokenize_expression`'s second loop):
phrases collapse to operator/parenthesis/function/combinatorics tokens,
filler words are dropped, anything else stays a plain word. -/
def postTok (r : Raw) : Option Tok :=
  match r with
  | .phrase val =>
    match OPERATORS_SYM.lookup val with
    | some sym => some (.op sym)
    | none =>
      if val = "скобка открывается" then some .lparen
      else if val = "скобка закрывается" then some .rparen
      else if val = "синус от" then some (.func "синус")
      else if val = "косинус от" then some (.func "косинус")
      else if val = "тангенс от" then some (.func "тангенс")
      else if val = "перестановок из" then some (.comb "перестановок")
      else if val = "размещений из" then some (.comb "размещений")
      else if val = "сочетаний из" then some (.comb "сочетаний")
      else if FILLER_WORDS.contains val then none
      else some (.word val)
  | .word w => if FILLER_WORDS.contains w then none else some (.word w)

/-- Tokenization of an already-split word list. -/
def tokenizeWords (ws : List String) : List Tok :=
  (tokenizeRaw ws).filterMap postTok

/-- Lower-casing as done by Python's `str.lower` on the relevant alphabet:
ASCII letters plus the Russian alphabet (А–Я and Ё). -/
def ruLowerChar (c : Char) : Char :=
  if 'А' ≤ c ∧ c ≤ 'Я' then Char.ofNat (c.toNat + 32)
  else if c = 'Ё' then 'ё'
  else c.toLower

/-- Lower-casing of a whole string. -/
def ruLower (s : String) : String := ⟨s.data.map ruLowerChar⟩

/-- `tokenize_expression` from the source: lower-case, normalize whitespace,
scan phrases, post-process. -/
def tokenize_expression (expr : String) : List Tok :=
  tokenizeWords (wordsOfStr (ruLower expr))

/-- Elements of the RPN output queue of `shunting_yard_with_numbers`. -/
inductive Rpn where
  | num (q : ℚ)
  | op (s : String)
  | func (s : String)
  | comb (kind : String) (n : ℚ) (k : Option ℚ)
deriving DecidableEq

/-- Elements of the operator stack of `shunting_yard_with_numbers` (an
`RPAREN` is never pushed). -/
inductive SEl where
  | op (s : String)
  | func (s : String)
  | lparen
deriving DecidableEq

/-- `_operator_props` from the source: (precedence, associativity) of an
operator symbol; the dictionary scan and the explicit fallback chain collapse
to one if-chain because the symbols are unique. -/
def operator_props (symbol : String) : Nat × String :=
  if symbol = "+" then (1, "left")
  else if symbol = "-" then (1, "left")
  else if symbol = "*" then (2, "left")
  else if symbol = "/" then (2, "left")
  else if symbol = "%" then (2, "left")
  else if symbol = "^" then (3, "right")
  else if symbol = "NEG" then (4, "right")
  else (1, "left")

/-- The unary-minus reinterpretation at the top of the `OP` branch of
`shunting_yard_with_numbers`: a "-" seen when the previous token did not
complete a value becomes the synthetic unary operator "NEG". -/
def minusResolve (s : String) (prevWasValue : Bool) : String :=
  if s = "-" ∧ prevWasValue = false then "NEG" else s

/-- The pop-loop of the `OP` branch: pop operators that bind at least as
tightly (respecting associativity), pop functions unconditionally, stop at an
open-parenthesis marker.  Returns the popped RPN elements (in pop order) and
the remaining stack. -/
def popForOp (prec : Nat) (assoc : String) : List SEl → List Rpn × List SEl
  | [] => ([], [])
  | SEl.op t :: rest =>
    if (assoc = "left" ∧ prec ≤ (operator_props t).1) ∨
        (assoc = "right" ∧ prec < (operator_props t).1) then
      let r := popForOp prec assoc rest
      (Rpn.op t :: r.1, r.2)
    else ([], SEl.op t :: rest)
  | SEl.func f :: rest =>
    let r := popForOp prec assoc rest
    (Rpn.func f :: r.1, r.2)
  | SEl.lparen :: rest => ([], SEl.lparen :: rest)

/-- The pop-loop of the `RPAREN` branch: pop and emit until the matching
open-parenthesis marker; `none` when there is none (unbalanced close). -/
def popUntilParen : List SEl → Option (List Rpn × List SEl)
  | [] => none
  | SEl.lparen :: rest => some ([], rest)
  | SEl.op t :: rest =>
    (popUntilParen rest).map (fun r => (Rpn.op t :: r.1, r.2))
  | SEl.func f :: rest =>
    (popUntilParen rest).map (fun r => (Rpn.func f :: r.1, r.2))

/-- The final flush of `shunting_yard_with_numbers`: emit remaining stacked
operators; a leftover open-parenthesis marker is a fatal parse error. -/
def flushFinal (out : List Rpn) : List SEl → Except CalcErr (List Rpn)
  | [] => .ok out
  | SEl.lparen :: _ =>
    .error (.parse "Несбалансированные скобки (незакрытая скобка)")
  | SEl.op t :: rest => flushFinal (out ++ [Rpn.op t]) rest
  | SEl.func f :: rest => flushFinal (out ++ [Rpn.func f]) rest

/-- Is a token a plain word? -/
def isWordTok : Tok → Bool
  | .word _ => true
  | _ => false

/-- Value of a word token ("" otherwise). -/
def wordStr : Tok → String
  | .word w => w
  | _ => ""

/-- The run of word values at the front of the token stream (the `word_seq`
collection of the `WORD` branch). -/
def wordSeq (ts : List Tok) : List String :=
  (ts.takeWhile isWordTok).map wordStr

/-- Word tokens other than "по" (the collection condition of the
combinatorics branch). -/
def untilPoPred (t : Tok) : Bool :=
  isWordTok t && !(wordStr t == "по")

/-- The word values collected by the combinatorics branch before a "по"
(stopping at "по" or at the first non-word token). -/
def wordsUntilPo (ts : List Tok) : List String :=
  (ts.takeWhile untilPoPred).map wordStr

/-- The `if ... tokens[j] == "из"` skip at the start of the combinatorics
branch. -/
def skipIz (ts : List Tok) : List Tok :=
  match ts with
  | Tok.word w :: r => if w = "из" then r else Tok.word w :: r
  | _ => ts

/-- Fallback operator words recognized by the `WORD` branch when number
parsing fails. -/
def opFallbackSym (w : String) : Option String :=
  if w = "плюс" then some "+"
  else if w = "минус" then some "-"
  else if w = "умножить" then some "*"
  else if w = "разделить" then some "/"
  else none

/-- First five words of a failed number run, joined (for the error message). -/
def joinFirstFive (ws : List String) : String :=
  String.intercalate " " (ws.take 5)

/-- Message text of an error value. -/
def errMsg : CalcErr → String
  | .parse m => m
  | .math m => m
  | .index m => m

/-- Main loop of `shunting_yard_with_numbers`.  State: fuel (the loop
consumes at least one token per step, so the token count suffices), remaining
tokens, output queue, operator stack, and the previous-token-completed-a-value
flag used for unary-minus detection. -/
def shuntGo : Nat → List Tok → List Rpn → List SEl → Bool →
    Except CalcErr (List Rpn)
  | _, [], out, st, _ => flushFinal out st
  | 0, _ :: _, _, _, _ => .error (.parse "внутренняя ошибка: исчерпан лимит шагов")
  | fuel + 1, t :: rest, out, st, prev =>
    match t with
    | Tok.word w =>
      let ws := wordSeq (Tok.word w :: rest)
      match parse_mixed_or_decimal_number ws 0 with
      | .ok r =>
        shuntGo fuel ((Tok.word w :: rest).drop (r.2 + 1))
          (out ++ [Rpn.num r.1]) st true
      | .error (.parse e) =>
        match opFallbackSym w with
        | some sym => shuntGo fuel rest (out ++ [Rpn.op sym]) st prev
        | none =>
          .error (.parse ("Не удалось распознать число из слов: " ++
            joinFirstFive ws ++ "... (" ++ e ++ ")"))
      | .error e => .error e
    | Tok.num q => shuntGo fuel rest (out ++ [Rpn.num q]) st true
    | Tok.op s =>
      let o := minusResolve s prev
      let pr := popForOp (operator_props o).1 (operator_props o).2 st
      shuntGo fuel rest (out ++ pr.1) (SEl.op o :: pr.2) false
    | Tok.func f => shuntGo fuel rest out (SEl.func f :: st) false
    | Tok.comb kind =>
      let rest1 := skipIz rest
      let ws1 := wordsUntilPo rest1
      let rest2 := rest1.drop ws1.length
      if ws1.isEmpty then
        .error (.parse "Ожидалось число после ... из в комбинаторной операции")
      else
        match parse_mixed_or_decimal_number ws1 0 with
        | .error e => .error e
        | .ok nv =>
          match rest2 with
          | Tok.word pw :: rest3 =>
            if pw = "по" then
              let ws2 := wordSeq rest3
              if ws2.isEmpty then
                .error (.parse "Ожидалось число после по в комбинаторной операции")
              else
                match parse_mixed_or_decimal_number ws2 0 with
                | .error e => .error e
                | .ok kv =>
                  shuntGo fuel (rest3.drop ws2.length)
                    (out ++ [Rpn.comb kind nv.1 (some kv.1)]) st true
            else
              shuntGo fuel (Tok.word pw :: rest3)
                (out ++ [Rpn.comb kind nv.1 none]) st true
          | _ =>
            shuntGo fuel rest2 (out ++ [Rpn.comb kind nv.1 none]) st true
    | Tok.lparen => shuntGo fuel rest out (SEl.lparen :: st) false
    | Tok.rparen =>
      match popUntilParen st with
      | none =>
        .error (.parse "Несбалансированные скобки (найдена закрывающая без открывающей)")
      | some pr => shuntGo fuel rest (out ++ pr.1) pr.2 true

/-- `shunting_yard_with_numbers` from the source. -/
def shunting_yard_with_numbers (tokens : List Tok) : Except CalcErr (List Rpn) :=
  shuntGo tokens.length tokens [] [] false

/-- Placeholder for the source's floating-point fallback
`float(a) ** float(b)` re-rationalized: IEEE arithmetic is not modelled; no
theorem below depends on this value. -/
def floatPowApprox (_ _ : ℚ) : ℚ := 0

/-- Placeholder for the source's floating-point trigonometric functions
re-rationalized: IEEE arithmetic is not modelled; no theorem below depends on
this value. -/
def floatTrig (_ : String) (_ : ℚ) : ℚ := 0

/-- Python `int(...)` on a `Fraction`: truncation toward zero. -/
def pyInt (q : ℚ) : Int := q.num.tdiv q.den

/-- The binary-operator dispatch of `evaluate_rpn` applied to popped operands
`a` (deeper) and `b` (top). -/
def applyBinOp (sym : String) (a b : ℚ) : Except CalcErr ℚ :=
  if sym = "+" then .ok (a + b)
  else if sym = "-" then .ok (a - b)
  else if sym = "*" then .ok (a * b)
  else if sym = "/" then
    if b = 0 then .error (.math "Деление на ноль") else .ok (a / b)
  else if sym = "%" then
    if b = 0 then .error (.math "Деление на ноль для операции остатка")
    else .ok (a - b * (⌊a / b⌋ : ℚ))
  else if sym = "^" then
    if b.den ≠ 1 then .ok (floatPowApprox a b)
    else if b.num ≥ 0 then .ok (a ^ b.num.toNat)
    else .ok (1 / a ^ (-b.num).toNat)
  else .error (.parse ("Неизвестный оператор " ++ sym))

/-- The combinatorics dispatch of `evaluate_rpn`: truncate the arguments to
integers; with no second argument compute `n!` (negative `n` is a
`MathError`); with two arguments the degenerate cases `k > n`, `n < 0`,
`k < 0` yield 0, otherwise the falling-factorial / binomial formulas. -/
def evalComb (kind : String) (nv : ℚ) (kv : Option ℚ) : Except CalcErr ℚ :=
  let n := pyInt nv
  match kv with
  | none =>
    if n < 0 then .error (.math "n для перестановок должен быть неотрицательным")
    else .ok ((Nat.factorial n.toNat : ℚ))
  | some kq =>
    let k := pyInt kq
    if kind = "перестановок" then
      if k > n ∨ n < 0 ∨ k < 0 then .ok 0
      else .ok ((Nat.factorial n.toNat / Nat.factorial (n - k).toNat : ℕ) : ℚ)
    else if kind = "размещений" then
      if k > n ∨ n < 0 ∨ k < 0 then .ok 0
      else .ok ((Nat.factorial n.toNat / Nat.factorial (n - k).toNat : ℕ) : ℚ)
    else if kind = "сочетаний" then
      if k > n ∨ n < 0 ∨ k < 0 then .ok 0
      else .ok ((Nat.factorial n.toNat /
        (Nat.factorial k.toNat * Nat.factorial (n - k).toNat) : ℕ) : ℚ)
    else .error (.parse ("Неизвестный вид комбинаторики: " ++ kind))

/-- Main loop of `evaluate_rpn`; the operand stack keeps its top at the
head. -/
def evalRpnGo : List Rpn → List ℚ → Except CalcErr ℚ
  | [], stack =>
    if stack.length ≠ 1 then
      .error (.parse "Некорректное выражение (после вычисления остаётся более одного значения на стеке)")
    else .ok (stack.headD 0)
  | Rpn.num q :: rest, stack => evalRpnGo rest (q :: stack)
  | Rpn.op s :: rest, stack =>
    if s = "NEG" then
      match stack with
      | a :: stack2 => evalRpnGo rest ((-a) :: stack2)
      | [] => .error (.parse "Недостаточно операндов для унарной операции")
    else
      match stack with
      | b :: a :: stack2 =>
        match applyBinOp s a b with
        | .ok r => evalRpnGo rest (r :: stack2)
        | .error e => .error e
      | _ => .error (.parse "Недостаточно операндов для бинарной операции")
  | Rpn.func f :: rest, stack =>
    match stack with
    | arg :: stack2 =>
      if f = "синус" ∨ f = "косинус" ∨ f = "тангенс" then
        evalRpnGo rest (floatTrig f arg :: stack2)
      else .error (.parse ("Неизвестная функция " ++ f))
    | [] => .error (.parse "Недостаточно операндов для функции")
  | Rpn.comb kind nv kv :: rest, stack =>
    match evalComb kind nv kv with
    | .ok v => evalRpnGo rest (v :: stack)
    | .error e => .error e

/-- `evaluate_rpn` from the source. -/
def evaluate_rpn (rpn : List Rpn) : Except CalcErr ℚ := evalRpnGo rpn []

/-- The continued-fraction loop of `Fraction.limit_denominator` (CPython's
implementation), fuel-based: the second Euclid argument strictly decreases,
so the starting denominator bounds the iteration count.  State:
`(p0, q0, p1, q1, n, d)`. -/
def limitDenGo (maxDen : Int) :
    Nat → Int → Int → Int → Int → Int → Int → Int × Int × Int × Int
  | 0, p0, q0, p1, q1, _, _ => (p0, q0, p1, q1)
  | fuel + 1, p0, q0, p1, q1, n, d =>
    let a := n.fdiv d
    let q2 := q0 + a * q1
    if q2 > maxDen then (p0, q0, p1, q1)
    else limitDenGo maxDen fuel p1 q1 (p0 + a * p1) q2 d (n - a * d)

/-- `Fraction.limit_denominator` (CPython): best rational approximation with
denominator at most `maxDen`. -/
def limit_denominator (q : ℚ) (maxDen : Nat) : ℚ :=
  if q.den ≤ maxDen then q
  else
    let r := limitDenGo maxDen q.den 0 1 1 0 q.num q.den
    match r with
    | (p0, q0, p1, q1) =>
      let k := ((maxDen : Int) - q0).fdiv q1
      let bound1 : ℚ := ((p0 + k * p1 : Int) : ℚ) / ((q0 + k * q1 : Int) : ℚ)
      let bound2 : ℚ := (p1 : ℚ) / (q1 : ℚ)
      if |bound2 - q| ≤ |bound1 - q| then bound2 else bound1

/-- The rational substituted for the word "пи" by `calc`:
`Fraction(str(pi)).limit_denominator(10 ** 6)`, where `str(pi)` is the
shortest repr of the IEEE double `math.pi`, "3.141592653589793". -/
def piApprox : ℚ := limit_denominator (3141592653589793 / 10 ^ 15 : ℚ) (10 ^ 6)

/-- The token transformation of `calc` replacing each standalone word "пи"
with the numeric token for `piApprox`. -/
def piTransform (ts : List Tok) : List Tok :=
  ts.map (fun t => if t = Tok.word "пи" then Tok.num piApprox else t)

/-- The `expr.replace("π", "пи")` rewrite of `calc` ("π" is a single
character, so character-wise substitution is exact). -/
def piReplaceChars : List Char → List Char
  | [] => []
  | c :: cs => if c = 'π' then 'п' :: 'и' :: piReplaceChars cs
               else c :: piReplaceChars cs

/-- `calc` from the source: reject empty input, lower-case, rewrite "π" to
"пи", tokenize, substitute "пи", build RPN, evaluate, render.  (The
empty-input test `not expression.strip()` is the all-whitespace check.) -/
def calcRu (expression : String) : Except CalcErr String := do
  if expression.data.all (fun c => c.isWhitespace) then
    .error (.parse "Пустая строка. Ожидается выражение.")
  else
    let expr : String := ⟨piReplaceChars (ruLower expression).data⟩
    let tokens := tokenize_expression expr
    let tokens2 := piTransform tokens
    let rpn ← shunting_yard_with_numbers tokens2
    let resultFraction ← evaluate_rpn rpn
    .ok (fraction_to_mixed_and_words resultFraction)

/-! ### Helper lemmas -/

/-- Decidable equality for `Except` results. -/
instance {ε α : Type} [DecidableEq ε] [DecidableEq α] :
    DecidableEq (Except ε α) := fun x y =>
  match x, y with
  | .error e, .error f => decidable_of_iff (e = f) (by simp)
  | .ok a, .ok b => decidable_of_iff (a = b) (by simp)
  | .error _, .ok _ => .isFalse (by simp)
  | .ok _, .error _ => .isFalse (by simp)

/-- Truncating division by one is the identity. -/
lemma int_tdiv_one (n : Int) : n.tdiv 1 = n := by
  rcases n with m | m <;> simp [Int.tdiv, Int.negSucc_eq]

/-- Python `int(...)` of an integer-valued rational is that integer. -/
lemma pyInt_intCast (n : Int) : pyInt (n : ℚ) = n := by
  simp only [pyInt, Rat.num_intCast, Rat.den_intCast, Nat.cast_one]
  exact int_tdiv_one n

/-- Python `int(...)` of a natural-valued rational is that natural. -/
lemma pyInt_natCast (n : Nat) : pyInt (n : ℚ) = n := by
  simpa using pyInt_intCast (n : Int)

/-! ### C3: modulo is floor-division based -/

/-- C3: for all rationals `a` and `b` with `b ≠ 0`, the evaluator's modulo
returns exactly `a - b * ⌊a / b⌋`, and when that result is nonzero its sign
follows the divisor `b`. -/
theorem C3_modulo_floor (a b : ℚ) (hb : b ≠ 0) :
    evaluate_rpn [Rpn.num a, Rpn.num b, Rpn.op "%"] =
        Except.ok (a - b * (⌊a / b⌋ : ℚ)) ∧
      (a - b * (⌊a / b⌋ : ℚ) ≠ 0 →
        (0 < a - b * (⌊a / b⌋ : ℚ) ↔ 0 < b)) := by
  constructor
  · simp [evaluate_rpn, evalRpnGo, applyBinOp, hb]
  · intro hne
    have key : a - b * (⌊a / b⌋ : ℚ) = b * Int.fract (a / b) := by
      rw [Int.fract, mul_sub, mul_div_cancel₀ a hb]
    rw [key] at hne ⊢
    have hf0 : (0 : ℚ) ≤ Int.fract (a / b) := Int.fract_nonneg _
    have hfne : Int.fract (a / b) ≠ 0 := by
      intro h; apply hne; rw [h, mul_zero]
    have hfpos : (0 : ℚ) < Int.fract (a / b) := lt_of_le_of_ne hf0 (Ne.symm hfne)
    exact mul_pos_iff_of_pos_right hfpos

/-- Witness for C3 at `a = 7`, `b = -2` (result `-1`, negative like the
divisor). -/
theorem C3_modulo_floor_witness :
    ((-2 : ℚ) ≠ 0) ∧
      (evaluate_rpn [Rpn.num 7, Rpn.num (-2), Rpn.op "%"] =
          Except.ok (7 - (-2) * (⌊(7 : ℚ) / (-2)⌋ : ℚ)) ∧
        (7 - (-2) * (⌊(7 : ℚ) / (-2)⌋ : ℚ) ≠ 0 →
          (0 < 7 - (-2) * (⌊(7 : ℚ) / (-2)⌋ : ℚ) ↔ 0 < (-2 : ℚ)))) :=
  ⟨by norm_num, C3_modulo_floor 7 (-2) (by norm_num)⟩

/-! ### C4: division and modulo by zero fail with MathError -/

/-- C4: whenever the right operand of a division or a modulo is zero,
the evaluator fails with a `MathError` ("division by zero"); in particular
`calc("десять разделить на ноль")` fails with that `MathError` and never
returns a numeric result. -/
theorem C4_division_by_zero (a : ℚ) :
    applyBinOp "/" a 0 = Except.error (CalcErr.math "Деление на ноль") ∧
      applyBinOp "%" a 0 =
        Except.error (CalcErr.math "Деление на ноль для операции остатка") ∧
      calcRu "десять разделить на ноль" =
        Except.error (CalcErr.math "Деление на ноль") := by
  refine ⟨by simp [applyBinOp], by simp [applyBinOp], by decide⟩

/-! ### C2: combinatorics — saturating policy (corrected) -/

/-- C2 counterexample: permutations-of-n with a single negative argument is an
out-of-domain combinatorics input, yet evaluation raises `MathError` instead
of yielding 0 as the claim states. -/
theorem C2_counterexample :
    evaluate_rpn [Rpn.comb "перестановок" (-1) none] =
        Except.error (CalcErr.math "n для перестановок должен быть неотрицательным") ∧
      evaluate_rpn [Rpn.comb "перестановок" (-1) none] ≠ Except.ok 0 := by
  refine ⟨by decide, by decide⟩

/-- C2 (amended): for the two-argument combinatorics forms the out-of-domain
cases (`k > n`, `n < 0`, `k < 0` after truncation to integers) yield 0 rather
than an error; in-domain combinations equal the binomial coefficient; the
single-argument permutations form raises `MathError` on a negative argument;
and the two spec examples render 10 and 0. -/
theorem C2_comb_amended :
    (∀ kind : String,
        kind = "перестановок" ∨ kind = "размещений" ∨ kind = "сочетаний" →
        ∀ n k : Int, k > n ∨ n < 0 ∨ k < 0 →
          evaluate_rpn [Rpn.comb kind (n : ℚ) (some (k : ℚ))] = Except.ok 0) ∧
      (∀ n k : Nat, k ≤ n →
        evaluate_rpn [Rpn.comb "сочетаний" (n : ℚ) (some (k : ℚ))] =
          Except.ok ((n.choose k : ℚ))) ∧
      (∀ n : Int, n < 0 →
        evaluate_rpn [Rpn.comb "перестановок" (n : ℚ) none] =
          Except.error (CalcErr.math "n для перестановок должен быть неотрицательным")) ∧
      calcRu "сочетаний из пять по три" = Except.ok "десять" ∧
      calcRu "сочетаний из два по пять" = Except.ok "ноль" := by
  refine ⟨?_, ?_, ?_, by decide, by decide⟩
  · intro kind hkind n k hdom
    rcases hkind with h | h | h <;> subst h <;>
      simp [evaluate_rpn, evalRpnGo, evalComb, pyInt_intCast, hdom]
  · intro n k hk
    have h1 : ¬((k : ℤ) > (n : ℤ)) := by omega
    have h2 : ¬((n : ℤ) < 0) := by omega
    have h3 : ¬((k : ℤ) < 0) := by omega
    have hsub : ((n : ℤ) - (k : ℤ)).toNat = n - k := by omega
    have hchoose :
        n.choose k = n.factorial / (k.factorial * (n - k).factorial) :=
      Nat.choose_eq_factorial_div_factorial hk
    simp [evaluate_rpn, evalRpnGo, evalComb, pyInt_natCast, h1, h2, h3,
      hsub, hchoose]
  · intro n hn
    simp [evaluate_rpn, evalRpnGo, evalComb, pyInt_intCast, hn]

/-- Witness for C2 (amended) at the concrete inputs C(2,5) (degenerate),
C(5,3) = 10, and permutations of -1. -/
theorem C2_comb_amended_witness :
    evaluate_rpn [Rpn.comb "сочетаний" ((2 : ℤ) : ℚ) (some ((5 : ℤ) : ℚ))] =
        Except.ok 0 ∧
      evaluate_rpn [Rpn.comb "сочетаний" ((5 : ℕ) : ℚ) (some ((3 : ℕ) : ℚ))] =
        Except.ok ((Nat.choose 5 3 : ℚ)) ∧
      evaluate_rpn [Rpn.comb "перестановок" ((-1 : ℤ) : ℚ) none] =
        Except.error (CalcErr.math "n для перестановок должен быть неотрицательным") :=
  ⟨C2_comb_amended.1 "сочетаний" (by simp) 2 5 (by norm_num),
   C2_comb_amended.2.1 5 3 (by norm_num),
   C2_comb_amended.2.2.1 (-1) (by norm_num)⟩

/-! ### C1: unary-minus detection (corrected) -/

/-- C1 counterexample: a subtraction-operator token immediately after a
combinatorics keyword is not treated as unary negation — the combinatorics
branch demands number words there and the whole build fails with a
`ParseError`, producing no postfix at all. -/
theorem C1_counterexample :
    shunting_yard_with_numbers [Tok.comb "сочетаний", Tok.op "-", Tok.word "один"] =
        Except.error (CalcErr.parse "Ожидалось число после ... из в комбинаторной операции") ∧
      (shunting_yard_with_numbers
        [Tok.comb "сочетаний", Tok.op "-", Tok.word "один"]).isOk = false := by
  exact ⟨by decide, by decide⟩

/-- C1 (amended): a subtraction-operator token seen while the
previous-token-completed-a-value flag is false — which holds at the start of
the expression, after an open parenthesis, after another operator, and after
a function keyword — is reinterpreted as the synthetic unary operator "NEG"
with highest precedence (4, right-associative) rather than binary
subtraction; a minus directly after a combinatorics keyword instead aborts
with `ParseError`; and `calc("пять минус минус один")` renders 6. -/
theorem C1_unary_minus_amended :
    minusResolve "-" false = "NEG" ∧
      operator_props "NEG" = (4, "right") ∧
      minusResolve "-" true = "-" ∧
      (∀ (ts : List Tok), shunting_yard_with_numbers ts = shuntGo ts.length ts [] [] false) ∧
      (∀ (fuel : Nat) (ts : List Tok) (out : List Rpn) (st : List SEl) (prev : Bool),
        shuntGo (fuel + 1) (Tok.lparen :: ts) out st prev =
          shuntGo fuel ts out (SEl.lparen :: st) false) ∧
      (∀ (fuel : Nat) (ts : List Tok) (out : List Rpn) (st : List SEl) (prev : Bool)
          (f : String),
        shuntGo (fuel + 1) (Tok.func f :: ts) out st prev =
          shuntGo fuel ts out (SEl.func f :: st) false) ∧
      (∀ (fuel : Nat) (ts : List Tok) (out : List Rpn) (st : List SEl),
        ∃ out2 st2,
          shuntGo (fuel + 1) (Tok.op "-" :: ts) out st false =
            shuntGo fuel ts out2 (SEl.op "NEG" :: st2) false) ∧
      calcRu "пять минус минус один" = Except.ok "шесть" := by
  refine ⟨rfl, rfl, rfl, fun ts => rfl, fun fuel ts out st prev => rfl,
    fun fuel ts out st prev f => rfl, ?_, by with_unfolding_all rfl⟩
  intro fuel ts out st
  exact ⟨out ++ (popForOp 4 "right" st).1, (popForOp 4 "right" st).2, rfl⟩

/-! ### C9: sign is a uniform "минус " prefix -/

/-- The sign prefix distributes out of the renderer body: every return path
of `fraction_to_mixed_and_words` interpolates the sign prefix in front of a
sign-independent remainder. -/
lemma renderCore_prefix_eq (sp : String) (x : ℚ) :
    renderCore sp x = sp ++ renderCore "" x := by
  have hnil : ∀ t : String, "" ++ t = t := fun t => rfl
  simp only [renderCore]
  rcases hps : periodSuffix x (x.num.fdiv x.den) with _ | s <;>
    split_ifs <;> simp [hps, hnil, String.append_assoc]

/-- C9: for every negative rational, the rendering is exactly "минус "
followed by the rendering of the absolute value, across all four rendering
forms. -/
theorem C9_negative_sign_prefix (r : ℚ) (hr : r < 0) :
    fraction_to_mixed_and_words r = "минус " ++ fraction_to_mixed_and_words |r| := by
  have h1 : ¬(|r| < 0) := not_lt.mpr (abs_nonneg r)
  unfold fraction_to_mixed_and_words
  rw [if_pos hr, if_neg h1, abs_of_neg hr]
  exact renderCore_prefix_eq "минус " (-r)

/-- Witness for C9 at `r = -1/2`. -/
theorem C9_negative_sign_prefix_witness :
    ((-1 / 2 : ℚ) < 0) ∧
      fraction_to_mixed_and_words (-1 / 2) =
        "минус " ++ fraction_to_mixed_and_words |(-1 / 2 : ℚ)| :=
  ⟨by norm_num, C9_negative_sign_prefix (-1 / 2) (by norm_num)⟩

/-! ### C10: the constant "пи" / "π" -/

set_option maxRecDepth 20000 in
/-- C10: `calc` first rewrites "π" to "пи" and substitutes the standalone
word "пи" by a fixed rational approximation of π wherever it occurs in the
token stream; the approximation's denominator is at most `10 ^ 6`, and
evaluating "пи" returns the rendering of exactly that rational. -/
theorem C10_pi_constant :
    calcRu "π" = calcRu "пи" ∧
      calcRu "пи" = Except.ok (fraction_to_mixed_and_words piApprox) ∧
      piApprox.den ≤ 10 ^ 6 ∧
      (∀ ts : List Tok,
        piTransform (Tok.word "пи" :: ts) = Tok.num piApprox :: piTransform ts) := by
  refine ⟨rfl, ?_, ?_, fun ts => by simp [piTransform]⟩
  · with_unfolding_all rfl
  · with_unfolding_all decide

/-! ### C5: parsing is a left inverse of integer rendering below 10^6 -/

/-- Parsing step: a rendered hundreds word adds its value to the current
block. -/
lemma numParseGo_hundWord (d : Nat) (h1 : 1 ≤ d) (h2 : d ≤ 9)
    (ws : List String) (t c k : Nat) :
    numParseGo (HUND_WORDS (d * 100) :: ws) t c k =
      numParseGo ws t (c + d * 100) (k + 1) := by
  interval_cases d <;> rfl

/-- Parsing step: a rendered tens word adds its value to the current block. -/
lemma numParseGo_tensWord (d : Nat) (h1 : 2 ≤ d) (h2 : d ≤ 9)
    (ws : List String) (t c k : Nat) :
    numParseGo (TENS_WORDS (d * 10) :: ws) t c k =
      numParseGo ws t (c + d * 10) (k + 1) := by
  interval_cases d <;> rfl

/-- Parsing step: a rendered ones word (1–19) adds its value to the current
block. -/
lemma numParseGo_onesWord (d : Nat) (h1 : 1 ≤ d) (h2 : d ≤ 19)
    (ws : List String) (t c k : Nat) :
    numParseGo (ONES d :: ws) t c k = numParseGo ws t (c + d) (k + 1) := by
  interval_cases d <;> rfl

/-- The thousands plural is always one of the three scale forms. -/
lemma plural_thousand_cases (n : Nat) :
    plural_thousand n = "тысяча" ∨ plural_thousand n = "тысячи" ∨
      plural_thousand n = "тысяч" := by
  unfold plural_thousand
  split_ifs <;> simp

/-- Parsing step: any thousands scale word folds the current block (with the
empty block counting as 1) into the total. -/
lemma numParseGo_thousandWord (w : String)
    (hw : w = "тысяча" ∨ w = "тысячи" ∨ w = "тысяч")
    (ws : List String) (t c k : Nat) :
    numParseGo (w :: ws) t c k =
      numParseGo ws (t + (if c = 0 then 1 else c) * 1000) 0 (k + 1) := by
  rcases hw with h | h | h <;> subst h <;> rfl

/-- Parsing a rendered hundreds block (1–999) adds exactly its value to the
current block and consumes at least one word. -/
lemma numParseGo_hundreds_words (m : Nat) (h1 : 1 ≤ m) (h2 : m ≤ 999)
    (ws : List String) (t c k : Nat) :
    ∃ j, 1 ≤ j ∧
      numParseGo (hundreds_words m ++ ws) t c k = numParseGo ws t (c + m) (k + j) := by
  simp only [hundreds_words, hundRem, tensRem]
  split_ifs with hA hB hC hC hB hC hC <;>
    simp only [List.nil_append, List.append_nil, List.cons_append,
      List.singleton_append, List.append_assoc]
  · -- hundreds, tens, ones
    refine ⟨3, by omega, ?_⟩
    rw [numParseGo_hundWord (m / 100) (by omega) (by omega),
      numParseGo_tensWord (m % 100 / 10) (by omega) (by omega),
      numParseGo_onesWord (m % 100 % 10) (by omega) (by omega)]
    congr 1
    omega
  · -- hundreds, tens
    refine ⟨2, by omega, ?_⟩
    rw [numParseGo_hundWord (m / 100) (by omega) (by omega),
      numParseGo_tensWord (m % 100 / 10) (by omega) (by omega)]
    congr 1
    omega
  · -- hundreds, ones
    refine ⟨2, by omega, ?_⟩
    rw [numParseGo_hundWord (m / 100) (by omega) (by omega),
      numParseGo_onesWord (m % 100) (by omega) (by omega)]
    congr 1
    omega
  · -- hundreds only
    refine ⟨1, by omega, ?_⟩
    rw [numParseGo_hundWord (m / 100) (by omega) (by omega)]
    congr 1
    omega
  · -- tens, ones
    refine ⟨2, by omega, ?_⟩
    rw [numParseGo_tensWord (m / 10) (by omega) (by omega),
      numParseGo_onesWord (m % 10) (by omega) (by omega)]
    congr 1
    omega
  · -- tens only
    refine ⟨1, by omega, ?_⟩
    rw [numParseGo_tensWord (m / 10) (by omega) (by omega)]
    congr 1
    omega
  · -- ones only
    refine ⟨1, by omega, ?_⟩
    rw [numParseGo_onesWord m (by omega) (by omega)]
  · -- all empty: impossible for m ≥ 1
    omega

/-- Parsing the rendered words of any `n < 10^6` recovers exactly `n`. -/
lemma int_words_parse (n : Nat) (h : n < 10 ^ 6) :
    ∃ L, 1 ≤ L ∧ numParseGo (int_words_list n) 0 0 0 = (n, L) := by
  rcases n with _ | m
  · exact ⟨1, le_refl 1, rfl⟩
  set n := m + 1 with hn
  have hbig : ¬(n ≥ 10 ^ 6) := by omega
  have hlist : int_words_list n =
      (if n ≥ 1000 then hundreds_words (n / 1000) ++ [plural_thousand (n / 1000)]
       else []) ++
      (if (if n ≥ 1000 then n % 1000 else n) > 0 then
         hundreds_words (if n ≥ 1000 then n % 1000 else n)
       else []) := by
    show int_words_go (n + 1) n = _
    rw [hn]
    show int_words_go (m + 2) (m + 1) = _
    simp only [int_words_go, ← hn, if_neg hbig, List.nil_append]
  by_cases hth : n ≥ 1000
  · have hq1 : 1 ≤ n / 1000 := by omega
    have hq2 : n / 1000 ≤ 999 := by omega
    rw [hlist]
    simp only [if_pos hth]
    by_cases hrem : n % 1000 > 0
    · rw [if_pos hrem]
      obtain ⟨j1, hj1, e1⟩ :=
        numParseGo_hundreds_words (n / 1000) hq1 hq2
          (plural_thousand (n / 1000) :: hundreds_words (n % 1000)) 0 0 0
      rw [List.append_assoc, List.singleton_append]
      rw [e1, numParseGo_thousandWord _ (plural_thousand_cases _),
        if_neg (by omega)]
      obtain ⟨j2, hj2, e2⟩ :=
        numParseGo_hundreds_words (n % 1000) (by omega) (by omega) []
          (0 + (0 + n / 1000) * 1000) 0 (0 + j1 + 1)
      rw [List.append_nil] at e2
      rw [e2]
      refine ⟨0 + j1 + 1 + j2, by omega, ?_⟩
      show (0 + (0 + n / 1000) * 1000 + (0 + n % 1000), _) = _
      congr 1
      omega
    · rw [if_neg hrem, List.append_nil]
      obtain ⟨j1, hj1, e1⟩ :=
        numParseGo_hundreds_words (n / 1000) hq1 hq2
          [plural_thousand (n / 1000)] 0 0 0
      rw [e1, numParseGo_thousandWord _ (plural_thousand_cases _),
        if_neg (by omega)]
      refine ⟨0 + j1 + 1, by omega, ?_⟩
      show (0 + (0 + n / 1000) * 1000 + 0, _) = _
      congr 1
      omega
  · rw [hlist]
    simp only [if_neg hth]
    rw [if_pos (by omega : n > 0), List.nil_append]
    obtain ⟨j, hj, e⟩ :=
      numParseGo_hundreds_words n (by omega) (by omega) [] 0 0 0
    rw [List.append_nil] at e
    rw [e]
    refine ⟨0 + j, by omega, ?_⟩
    show (0 + (0 + n), 0 + j) = _
    congr 1
    omega

/-- C5: for every `n < 10^6`, parsing the words of `int_to_words n` with
`parse_simple_number_words` recovers exactly `n` (left inverse), hence
re-rendering the parsed value gives exactly the same words as rendering `n`
directly. -/
theorem C5_int_words_roundtrip (n : Nat) (h : n < 10 ^ 6) :
    (parse_simple_number_words (int_words_list n) 0).map Prod.fst =
        Except.ok n ∧
      (parse_simple_number_words (int_words_list n) 0).map
          (fun p => int_to_words_nat p.1) =
        Except.ok (int_to_words_nat n) := by
  obtain ⟨L, hL, hgo⟩ := int_words_parse n h
  have hparse : parse_simple_number_words (int_words_list n) 0 =
      Except.ok (n, 0 + L - 1) := by
    unfold parse_simple_number_words
    rw [List.drop_zero, hgo]
    simp [Nat.ne_of_gt hL]
  rw [hparse]
  exact ⟨rfl, rfl⟩

/-- Witness for C5 at `n = 123456`. -/
theorem C5_int_words_roundtrip_witness :
    123456 < 10 ^ 6 ∧
      ((parse_simple_number_words (int_words_list 123456) 0).map Prod.fst =
          Except.ok 123456 ∧
        (parse_simple_number_words (int_words_list 123456) 0).map
            (fun p => int_to_words_nat p.1) =
          Except.ok (int_to_words_nat 123456)) :=
  ⟨by norm_num, C5_int_words_roundtrip 123456 (by norm_num)⟩

/-! ### C6: denominator-3 rationals render with an explicit period -/

/-- A reduced rational with denominator 3 has numerator `≡ 1` or `≡ 2`
mod 3. -/
lemma den3_emod (x : ℚ) (hx : x.den = 3) :
    x.num.emod 3 = 1 ∨ x.num.emod 3 = 2 := by
  have hg : Nat.gcd x.num.natAbs x.den = 1 := x.reduced
  rw [hx] at hg
  have h3 : ¬((3 : Int) ∣ x.num) := by
    intro hdvd
    have habs : (3 : Nat) ∣ x.num.natAbs := by
      have := Int.natAbs_dvd_natAbs.mpr hdvd
      simpa using this
    have : (3 : Nat) ∣ Nat.gcd x.num.natAbs 3 := Nat.dvd_gcd habs dvd_rfl
    omega
  have h0 : x.num.emod 3 ≠ 0 := fun h => h3 (Int.dvd_of_emod_eq_zero h)
  have h1 : 0 ≤ x.num.emod 3 := Int.emod_nonneg _ (by norm_num)
  have h2 : x.num.emod 3 < 3 := Int.emod_lt_of_pos _ (by norm_num)
  omega

/-- Denominator 3 contains a prime other than 2 and 5. -/
lemma is_terminating_den3 (x : ℚ) (hx : x.den = 3) :
    is_terminating_decimal x = false := by
  unfold is_terminating_decimal
  rw [hx]
  rfl

/-- Long division of a positive rational with denominator 3 finds the
single-digit repeating cycle ("3" or "6") with no non-repeating digits. -/
lemma period_den3 (x : ℚ) (hx : x.den = 3) (hpos : 0 < x.num) :
    fraction_to_decimal_with_period x 10 6 =
      (toString (x.num.toNat / 3),
        some (if x.num.emod 3 = 1 then "3" else "6")) := by
  have hxpos : 0 < x := Rat.num_pos.mp hpos
  have hnlt : ¬(x < 0) := by linarith
  have habs : |x| = x := abs_of_pos hxpos
  rcases den3_emod x hx with hr | hr
  · have hr2 : x.num % 3 = 1 := hr
    have hrn : x.num.toNat % 3 = 1 := by omega
    simp only [fraction_to_decimal_with_period, habs, hx, hrn, if_neg hnlt,
      hr, if_pos]
    rfl
  · have hr2 : x.num % 3 = 2 := hr
    have hrn : x.num.toNat % 3 = 2 := by omega
    have hr1 : ¬(x.num.emod 3 = 1) := by
      intro h
      have h2 : x.num % 3 = 1 := h
      omega
    simp only [fraction_to_decimal_with_period, habs, hx, hrn, if_neg hnlt,
      if_neg hr1]
    rfl

/-- Whenever the renderer's long division detects a non-empty period, the
periodic branch renders "… и <first 4 period digits as words> в периоде". -/
lemma periodSuffix_of_period (x : ℚ) (w : Int)
    (hterm : is_terminating_decimal x = false) (p : String)
    (hp : (fraction_to_decimal_with_period x 10 6).2 = some p) (hne : p ≠ "") :
    ∃ pre, periodSuffix x w =
      some (pre ++ " и " ++ digits_to_words ⟨p.data.take 4⟩ ++ " в периоде") := by
  rcases hpr : fraction_to_decimal_with_period x 10 6 with ⟨d, per⟩
  rw [hpr] at hp
  simp only at hp
  subst hp
  simp only [periodSuffix, hterm, Bool.false_eq_true, if_false, hpr]
  rw [if_pos hne]
  by_cases hw : w = 0
  · rw [if_pos hw]
    exact ⟨_, rfl⟩
  · rw [if_neg hw]
    exact ⟨_, rfl⟩

/-- The renderer body on a positive rational with denominator 3: the
periodic branch fires. -/
lemma renderCore_den3 (sp : String) (x : ℚ) (hx : x.den = 3) (hpos : 0 < x.num) :
    ∃ p pre,
      (fraction_to_decimal_with_period x 10 6).2 = some p ∧
        renderCore sp x =
          sp ++ (pre ++ " и " ++ digits_to_words ⟨p.data.take 4⟩ ++ " в периоде") := by
  have hterm := is_terminating_den3 x hx
  have hper := period_den3 x hx hpos
  have hfrac0 : ¬(mkRat (x.num.emod x.den) x.den = 0) := by
    rw [hx]
    simp only [Nat.cast_ofNat]
    rcases den3_emod x hx with hr | hr <;> rw [hr] <;> decide
  have hfden : ¬((mkRat (x.num.emod x.den) x.den).den = 100 ∨
      (mkRat (x.num.emod x.den) x.den).den = 1000 ∨
      (mkRat (x.num.emod x.den) x.den).den = 10 ^ 6) := by
    rw [hx]
    simp only [Nat.cast_ofNat]
    rcases den3_emod x hx with hr | hr <;> rw [hr] <;> decide
  have hne : (if x.num.emod 3 = 1 then ("3" : String) else "6") ≠ "" := by
    split_ifs <;> decide
  obtain ⟨pre, hps⟩ := periodSuffix_of_period x (x.num.fdiv x.den) hterm
    (if x.num.emod 3 = 1 then "3" else "6") (by rw [hper]) hne
  refine ⟨(if x.num.emod 3 = 1 then "3" else "6"), pre, by rw [hper], ?_⟩
  simp only [renderCore]
  rw [if_neg hfrac0, if_neg hfden, hps]

/-- C6: every rational with reduced denominator 3 is rendered through the
period-detection branch: long division returns a (one-digit) repeating cycle,
and the output is the explicit periodic form "… и <cycle words, the cycle
capped at 4 digits> в периоде". -/
theorem C6_period_denominator_three (q : ℚ) (hq : q.den = 3) :
    ∃ p pre,
      (fraction_to_decimal_with_period |q| 10 6).2 = some p ∧
        (p.data.take 4).length ≤ 4 ∧
        fraction_to_mixed_and_words q =
          pre ++ " и " ++ digits_to_words ⟨p.data.take 4⟩ ++ " в периоде" := by
  by_cases hneg : q < 0
  · have hden : (-q).den = 3 := by rw [Rat.neg_den]; exact hq
    have hpos : 0 < (-q).num := by
      rw [Rat.neg_num]
      have := Rat.num_neg.mpr hneg
      omega
    obtain ⟨p, pre, h1, h2⟩ := renderCore_den3 "минус " (-q) hden hpos
    have habs : |q| = -q := abs_of_neg hneg
    refine ⟨p, "минус " ++ pre, by rw [habs]; exact h1,
      by rw [List.length_take]; omega, ?_⟩
    rw [fraction_to_mixed_and_words, if_pos hneg, h2]
    simp [String.append_assoc]
  · have hq0 : q ≠ 0 := by
      intro h
      rw [h] at hq
      simp at hq
    have hge : 0 ≤ q := not_lt.mp hneg
    have hpos : 0 < q.num := Rat.num_pos.mpr (lt_of_le_of_ne hge (Ne.symm hq0))
    obtain ⟨p, pre, h1, h2⟩ := renderCore_den3 "" q hq hpos
    have habs : |q| = q := abs_of_nonneg hge
    refine ⟨p, pre, by rw [habs]; exact h1,
      by rw [List.length_take]; omega, ?_⟩
    rw [fraction_to_mixed_and_words, if_neg hneg, h2]
    simp [String.append_assoc]

/-- Witness for C6 at `q = 1/3` (rendered "ноль и ноль и три в периоде"). -/
theorem C6_period_denominator_three_witness :
    (mkRat 1 3).den = 3 ∧
      (∃ p pre,
        (fraction_to_decimal_with_period |mkRat 1 3| 10 6).2 = some p ∧
          ((p.data.take 4).length ≤ 4 ∧
            fraction_to_mixed_and_words (mkRat 1 3) =
              pre ++ " и " ++ digits_to_words ⟨p.data.take 4⟩ ++ " в периоде")) := by
  refine ⟨by decide, ?_⟩
  obtain ⟨p, pre, h1, h2, h3⟩ := C6_period_denominator_three (mkRat 1 3) (by decide)
  exact ⟨p, pre, h1, h2, h3⟩

/-! ### C7: greedy longest-match tokenization of "остаток от деления" -/

/-- The phrase loop only returns positive word counts (every phrase is
non-empty). -/
lemma phraseLoop_pos : ∀ (ps : List String) (ws : List String) (r : String × Nat),
    (∀ p ∈ ps, wordsOfStr p ≠ []) → phraseLoop ps ws = some r → 1 ≤ r.2 := by
  intro ps
  induction ps with
  | nil => intro ws r _ h; simp [phraseLoop] at h
  | cons p ps ih =>
    intro ws r hne h
    rw [phraseLoop] at h
    split_ifs at h with hp
    · have : wordsOfStr p ≠ [] := hne p (by simp)
      have h2 : r.2 = (wordsOfStr p).length := by
        cases h
        rfl
      rw [h2]
      cases hw : wordsOfStr p
      · exact absurd hw this
      · simp
    · exact ih ws r (fun q hq => hne q (by simp [hq])) h

/-- The phrase loop consumes at most three words (no phrase is longer). -/
lemma phraseLoop_le : ∀ (ps : List String) (ws : List String) (r : String × Nat),
    (∀ p ∈ ps, (wordsOfStr p).length ≤ 3) → phraseLoop ps ws = some r → r.2 ≤ 3 := by
  intro ps
  induction ps with
  | nil => intro ws r _ h; simp [phraseLoop] at h
  | cons p ps ih =>
    intro ws r hle h
    rw [phraseLoop] at h
    split_ifs at h with hp
    · have h2 : r.2 = (wordsOfStr p).length := by
        cases h
        rfl
      rw [h2]
      exact hle p (by simp)
    · exact ih ws r (fun q hq => hle q (by simp [hq])) h

/-- If no phrase has `b` as its second word, a phrase match just before an
occurrence of `b` cannot extend into it. -/
lemma phraseLoop_second_word (b : String) :
    ∀ (ps : List String) (x : String) (rest : List String) (r : String × Nat),
      (∀ p ∈ ps, (wordsOfStr p).get? 1 ≠ some b) →
      phraseLoop ps (x :: b :: rest) = some r → r.2 ≤ 1 := by
  intro ps
  induction ps with
  | nil => intro x rest r _ h; simp [phraseLoop] at h
  | cons p ps ih =>
    intro x rest r hsec h
    rw [phraseLoop] at h
    split_ifs at h with hp
    · have h2 : r.2 = (wordsOfStr p).length := by
        cases h
        rfl
      rw [h2]
      rcases hw : wordsOfStr p with _ | ⟨a, _ | ⟨c, t⟩⟩
      · simp
      · simp
      · exfalso
        rw [hw, List.isPrefixOf_iff_prefix, List.cons_prefix_cons] at hp
        have hc : c = b := (List.cons_prefix_cons.mp hp.2).1
        have := hsec p (by simp)
        rw [hw, hc] at this
        simp at this
    · exact ih x rest r (fun q hq => hsec q (by simp [hq])) h

/-- If no phrase has `b` as its third word, a phrase match two words before
an occurrence of `b` cannot extend into it. -/
lemma phraseLoop_third_word (b : String) :
    ∀ (ps : List String) (x y : String) (rest : List String) (r : String × Nat),
      (∀ p ∈ ps, (wordsOfStr p).get? 2 ≠ some b) →
      phraseLoop ps (x :: y :: b :: rest) = some r → r.2 ≤ 2 := by
  intro ps
  induction ps with
  | nil => intro x y rest r _ h; simp [phraseLoop] at h
  | cons p ps ih =>
    intro x y rest r hsec h
    rw [phraseLoop] at h
    split_ifs at h with hp
    · have h2 : r.2 = (wordsOfStr p).length := by
        cases h
        rfl
      rw [h2]
      rcases hw : wordsOfStr p with _ | ⟨a, _ | ⟨c, _ | ⟨d, t⟩⟩⟩
      · simp
      · simp
      · simp
      · exfalso
        rw [hw, List.isPrefixOf_iff_prefix, List.cons_prefix_cons] at hp
        have hp2 := (List.cons_prefix_cons.mp hp.2).2
        have hd : d = b := (List.cons_prefix_cons.mp hp2).1
        have := hsec p (by simp)
        rw [hw, hd] at this
        simp at this
    · exact ih x y rest r (fun q hq => hsec q (by simp [hq])) h

/-- One scanner step always consumes at least one word. -/
lemma matchStep_snd_pos (ws : List String) : 1 ≤ (matchStep ws).2 := by
  unfold matchStep
  rcases hpl : phraseLoop PHRASE_TOKENS ws with _ | r
  · rcases ws with _ | ⟨w1, _ | ⟨w2, ws⟩⟩
    · norm_num
    · norm_num
    · dsimp only
      split_ifs <;> norm_num
  · simpa using phraseLoop_pos PHRASE_TOKENS ws r (by decide) hpl

/-- One scanner step consumes at most three words. -/
lemma matchStep_snd_le (ws : List String) : (matchStep ws).2 ≤ 3 := by
  unfold matchStep
  rcases hpl : phraseLoop PHRASE_TOKENS ws with _ | r
  · rcases ws with _ | ⟨w1, _ | ⟨w2, ws⟩⟩
    · norm_num
    · norm_num
    · dsimp only
      split_ifs <;> norm_num
  · simpa using phraseLoop_le PHRASE_TOKENS ws r (by decide) hpl

/-- No fixed phrase has "остаток" as a non-initial word, so the scanner step
starting one word before an occurrence of "остаток от деления" cannot
swallow "остаток". -/
lemma matchStep_cross_one (x : String) (rest : List String) :
    (matchStep (x :: "остаток" :: "от" :: "деления" :: rest)).2 ≤ 1 := by
  unfold matchStep
  rcases hpl : phraseLoop PHRASE_TOKENS
      (x :: "остаток" :: "от" :: "деления" :: rest) with _ | r
  · dsimp only
    split_ifs with h1 h2 h3 h4
    · exact absurd h1.2 (by decide)
    · exact absurd h2.2 (by decide)
    · exact absurd h3.2 (by decide)
    · exact absurd h4.2 (by decide)
    · norm_num
  · simpa using
      phraseLoop_second_word "остаток" PHRASE_TOKENS x _ r (by decide) hpl

/-- No fixed phrase has "остаток" as its third word, so the scanner step
starting two words before an occurrence of "остаток от деления" cannot
swallow "остаток". -/
lemma matchStep_cross_two (x y : String) (rest : List String) :
    (matchStep (x :: y :: "остаток" :: "от" :: "деления" :: rest)).2 ≤ 2 := by
  unfold matchStep
  rcases hpl : phraseLoop PHRASE_TOKENS
      (x :: y :: "остаток" :: "от" :: "деления" :: rest) with _ | r
  · dsimp only
    split_ifs <;> norm_num
  · simpa using
      phraseLoop_third_word "остаток" PHRASE_TOKENS x y _ r (by decide) hpl

/-- At the occurrence itself, the scanner matches the full three-word phrase
(first in `PHRASE_TOKENS`). -/
lemma matchStep_triple (rest : List String) :
    matchStep ("остаток" :: "от" :: "деления" :: rest) =
      (Raw.phrase "остаток от деления", 3) := by
  have hw : wordsOfStr "остаток от деления" = ["остаток", "от", "деления"] := by
    decide
  have hpre : (wordsOfStr "остаток от деления").isPrefixOf
      ("остаток" :: "от" :: "деления" :: rest) = true := by
    rw [hw]
    simp [List.isPrefixOf]
  have hpl : phraseLoop PHRASE_TOKENS ("остаток" :: "от" :: "деления" :: rest) =
      some ("остаток от деления", 3) := by
    show phraseLoop ("остаток от деления" :: _) _ = _
    rw [phraseLoop, if_pos hpre, hw]
    rfl
  unfold matchStep
  rw [hpl]

/-- `tokGo` on the empty list is empty for any fuel. -/
lemma tokGo_nil (fuel : Nat) : tokGo fuel [] = [] := by
  cases fuel <;> rfl

/-- One unfolding of the scanner loop. -/
lemma tokGo_cons_eq (fuel : Nat) (w : String) (ws : List String) :
    tokGo (fuel + 1) (w :: ws) =
      (matchStep (w :: ws)).1 ::
        tokGo fuel ((w :: ws).drop (matchStep (w :: ws)).2) := rfl

/-- One unfolding of the whole raw tokenizer. -/
lemma tokenizeRaw_cons (w : String) (ws : List String) :
    tokenizeRaw (w :: ws) =
      (matchStep (w :: ws)).1 ::
        tokGo ws.length ((w :: ws).drop (matchStep (w :: ws)).2) := rfl

/-- The scanner result does not depend on the fuel, provided the fuel covers
the word count. -/
lemma tokGo_eq_of_le (f : Nat) :
    ∀ (g : Nat) (ws : List String), ws.length ≤ f → ws.length ≤ g →
      tokGo f ws = tokGo g ws := by
  induction f with
  | zero =>
    intro g ws hf _
    have : ws = [] := by
      cases ws
      · rfl
      · simp at hf
    subst this
    rw [tokGo_nil, tokGo_nil]
  | succ f ih =>
    intro g ws hf hg
    rcases ws with _ | ⟨w, ws⟩
    · rw [tokGo_nil, tokGo_nil]
    · rcases g with _ | g
      · simp at hg
      · rw [tokGo_cons_eq, tokGo_cons_eq]
        have hpos := matchStep_snd_pos (w :: ws)
        have h1 : ((w :: ws).drop (matchStep (w :: ws)).2).length ≤ f := by
          rw [List.length_drop]
          simp only [List.length_cons] at hf ⊢
          omega
        have h2 : ((w :: ws).drop (matchStep (w :: ws)).2).length ≤ g := by
          rw [List.length_drop]
          simp only [List.length_cons] at hg ⊢
          omega
        rw [ih g _ h1 h2]

/-- The scanner emits a single phrase token for every occurrence of
"остаток от деления", resuming right after it. -/
lemma tokenizeRaw_triple :
    ∀ (n : Nat) (xs : List String), xs.length ≤ n → ∀ rest : List String,
      ∃ pre, tokenizeRaw (xs ++ "остаток" :: "от" :: "деления" :: rest) =
        pre ++ Raw.phrase "остаток от деления" :: tokenizeRaw rest := by
  have base : ∀ rest : List String,
      tokenizeRaw ("остаток" :: "от" :: "деления" :: rest) =
        Raw.phrase "остаток от деления" :: tokenizeRaw rest := by
    intro rest
    rw [tokenizeRaw_cons, matchStep_triple]
    show _ :: tokGo (rest.length + 1 + 1) rest = _
    rw [tokGo_eq_of_le _ rest.length rest (by omega) (le_refl _)]
    rfl
  intro n
  induction n with
  | zero =>
    intro xs hxs rest
    have hnil : xs = [] := by
      cases xs
      · rfl
      · simp at hxs
    subst hnil
    exact ⟨[], by rw [List.nil_append, base, List.nil_append]⟩
  | succ n ih =>
    intro xs hxs rest
    rcases xs with _ | ⟨x, xs⟩
    · exact ⟨[], by rw [List.nil_append, base, List.nil_append]⟩
    · set tail := xs ++ "остаток" :: "от" :: "деления" :: rest with htail
      have hk1 := matchStep_snd_pos (x :: tail)
      have hkxs : (matchStep (x :: tail)).2 ≤ xs.length + 1 := by
        rcases xs with _ | ⟨y, xs2⟩
        · simpa [htail] using matchStep_cross_one x rest
        · rcases xs2 with _ | ⟨z, xs3⟩
          · simpa [htail] using matchStep_cross_two x y rest
          · have := matchStep_snd_le (x :: tail)
            simp only [List.length_cons]
            omega
      have hdrop : (x :: tail).drop (matchStep (x :: tail)).2 =
          (x :: xs).drop (matchStep (x :: tail)).2 ++
            "остаток" :: "от" :: "деления" :: rest := by
        rw [htail]
        rw [show x :: (xs ++ "остаток" :: "от" :: "деления" :: rest) =
          (x :: xs) ++ "остаток" :: "от" :: "деления" :: rest from rfl]
        exact List.drop_append_of_le_length (by simpa using hkxs)
      have hfuel : tokGo tail.length ((x :: tail).drop (matchStep (x :: tail)).2) =
          tokenizeRaw ((x :: tail).drop (matchStep (x :: tail)).2) := by
        apply tokGo_eq_of_le
        · rw [List.length_drop]
          simp only [List.length_cons]
          omega
        · exact le_refl _
      obtain ⟨pre2, hpre2⟩ :=
        ih ((x :: xs).drop (matchStep (x :: tail)).2)
          (by
            rw [List.length_drop]
            simp only [List.length_cons] at hxs ⊢
            omega) rest
      refine ⟨(matchStep (x :: tail)).1 :: pre2, ?_⟩
      rw [show (x :: xs) ++ "остаток" :: "от" :: "деления" :: rest = x :: tail
          from rfl,
        tokenizeRaw_cons, hfuel, hdrop, hpre2, List.cons_append]

/-- Tokenization maps every occurrence of "остаток от деления" to the single
modulo-operator token. -/
lemma tokenizeWords_triple (xs rest : List String) :
    ∃ pre, tokenizeWords (xs ++ "остаток" :: "от" :: "деления" :: rest) =
      pre ++ Tok.op "%" :: tokenizeWords rest := by
  obtain ⟨preRaw, h⟩ := tokenizeRaw_triple xs.length xs (le_refl _) rest
  refine ⟨preRaw.filterMap postTok, ?_⟩
  unfold tokenizeWords
  rw [h, List.filterMap_append, List.filterMap_cons]
  rfl

/-- C7: the tokenizer is greedy longest-match on "остаток от деления": for
every input whose (lower-cased, whitespace-normalized) word list contains the
three words "остаток", "от", "деления" consecutively, `tokenize_expression`
emits a single modulo-operator token for that occurrence — never three
separate word tokens — and resumes scanning right after "деления". -/
theorem C7_longest_match_modulo (s : String) (xs rest : List String)
    (hs : wordsOfStr (ruLower s) = xs ++ "остаток" :: "от" :: "деления" :: rest) :
    ∃ pre, tokenize_expression s = pre ++ Tok.op "%" :: tokenizeWords rest := by
  unfold tokenize_expression
  rw [hs]
  exact tokenizeWords_triple xs rest

/-- Witness for C7 on the input "десять остаток от деления три". -/
theorem C7_longest_match_modulo_witness :
    wordsOfStr (ruLower "десять остаток от деления три") =
        ["десять"] ++ "остаток" :: "от" :: "деления" :: ["три"] ∧
      ∃ pre, tokenize_expression "десять остаток от деления три" =
        pre ++ Tok.op "%" :: tokenizeWords ["три"] :=
  ⟨by decide, C7_longest_match_modulo "десять остаток от деления три"
    ["десять"] ["три"] (by decide)⟩

/-! ### C8: unbalanced parentheses make the expression builder fail -/

/-- Is a token an open parenthesis? -/
def isLP : Tok → Bool
  | .lparen => true
  | _ => false

/-- Is a token a close parenthesis? -/
def isRP : Tok → Bool
  | .rparen => true
  | _ => false

/-- Number of open-parenthesis tokens. -/
def lpCount (ts : List Tok) : Nat := ts.countP isLP

/-- Number of close-parenthesis tokens. -/
def rpCount (ts : List Tok) : Nat := ts.countP isRP

/-- Number of open-parenthesis markers on the operator stack. -/
def stLP (st : List SEl) : Nat :=
  st.countP (fun e => match e with | SEl.lparen => true | _ => false)

/-- Is an error a `MathError`? -/
def isMathErr : CalcErr → Bool
  | .math _ => true
  | _ => false

/-- Tokens that are neither parenthesis. -/
def noParen (t : Tok) : Bool := !isLP t && !isRP t

/-- "The remaining tokens must make the builder fail, given `m` open markers
already stacked": either some close-parenthesis has no matching open before
it, or opens outnumber closes overall. -/
def BadT (ts : List Tok) (m : Nat) : Prop :=
  (∃ p r, ts = p ++ Tok.rparen :: r ∧ lpCount p + m ≤ rpCount p) ∨
    rpCount ts < lpCount ts + m

/-- A leftover open marker makes the final flush fail. -/
lemma flushFinal_err : ∀ (st : List SEl) (out : List Rpn), 1 ≤ stLP st →
    flushFinal out st =
      Except.error (CalcErr.parse "Несбалансированные скобки (незакрытая скобка)") := by
  intro st
  induction st with
  | nil => intro out h; simp [stLP] at h
  | cons e st ih =>
    intro out h
    cases e with
    | lparen => rfl
    | op s =>
      have : 1 ≤ stLP st := by simpa [stLP, List.countP_cons] using h
      exact ih _ this
    | func f =>
      have : 1 ≤ stLP st := by simpa [stLP, List.countP_cons] using h
      exact ih _ this

/-- With no open marker stacked, the close-parenthesis pop finds nothing. -/
lemma popUntilParen_none : ∀ st : List SEl, stLP st = 0 → popUntilParen st = none := by
  intro st
  induction st with
  | nil => intro _; rfl
  | cons e st ih =>
    intro h
    cases e with
    | lparen => simp [stLP, List.countP_cons] at h
    | op s =>
      have h2 : stLP st = 0 := by simpa [stLP, List.countP_cons] using h
      simp [popUntilParen, ih h2]
    | func f =>
      have h2 : stLP st = 0 := by simpa [stLP, List.countP_cons] using h
      simp [popUntilParen, ih h2]

/-- A successful close-parenthesis pop removes exactly one open marker. -/
lemma popUntilParen_some : ∀ (st : List SEl) (pr : List Rpn × List SEl),
    popUntilParen st = some pr → stLP st = stLP pr.2 + 1 := by
  intro st
  induction st with
  | nil => intro pr h; simp [popUntilParen] at h
  | cons e st ih =>
    intro pr h
    cases e with
    | lparen =>
      simp only [popUntilParen, Option.some.injEq] at h
      subst h
      simp [stLP, List.countP_cons]
    | op s =>
      simp only [popUntilParen, Option.map_eq_some'] at h
      obtain ⟨pr2, hpr2, hmap⟩ := h
      subst hmap
      simpa [stLP, List.countP_cons] using ih pr2 hpr2
    | func f =>
      simp only [popUntilParen, Option.map_eq_some'] at h
      obtain ⟨pr2, hpr2, hmap⟩ := h
      subst hmap
      simpa [stLP, List.countP_cons] using ih pr2 hpr2

/-- The operator pop never touches open markers. -/
lemma stLP_popForOp (prec : Nat) (assoc : String) :
    ∀ st : List SEl, stLP (popForOp prec assoc st).2 = stLP st := by
  intro st
  induction st with
  | nil => rfl
  | cons e st ih =>
    cases e with
    | lparen => simp [popForOp, stLP, List.countP_cons]
    | op s =>
      rw [popForOp]
      split_ifs with hc
      · simpa [stLP, List.countP_cons] using ih
      · rfl
    | func f =>
      rw [popForOp]
      simpa [stLP, List.countP_cons] using ih

/-- Badness is preserved when a non-parenthesis token is consumed. -/
lemma badT_cons_nonparen (t : Tok) (ts : List Tok) (m : Nat)
    (hnp : noParen t = true) : BadT (t :: ts) m → BadT ts m := by
  have hlp : isLP t = false := by
    cases t <;> simp_all [noParen, isLP, isRP]
  have hrp : isRP t = false := by
    cases t <;> simp_all [noParen, isLP, isRP]
  rintro (⟨p, r, hdec, hcnt⟩ | hlt)
  · rcases p with _ | ⟨q, p⟩
    · simp only [List.nil_append, List.cons.injEq] at hdec
      rw [hdec.1] at hrp
      simp [isRP] at hrp
    · simp only [List.cons_append, List.cons.injEq] at hdec
      obtain ⟨hq, hts⟩ := hdec
      subst hq
      refine Or.inl ⟨p, r, hts, ?_⟩
      simpa [lpCount, rpCount, List.countP_cons, hlp, hrp] using hcnt
  · refine Or.inr ?_
    simpa [lpCount, rpCount, List.countP_cons, hlp, hrp] using hlt

/-- Badness is preserved when a prefix of non-parenthesis tokens is
consumed. -/
lemma badT_drop_nonparen : ∀ (k : Nat) (ts : List Tok) (m : Nat),
    (∀ t ∈ ts.take k, noParen t = true) → BadT ts m → BadT (ts.drop k) m := by
  intro k
  induction k with
  | zero => intro ts m _ h; simpa using h
  | succ k ih =>
    intro ts m hall h
    rcases ts with _ | ⟨t, ts⟩
    · simpa using h
    · have ht : noParen t = true := hall t (by simp)
      have h2 := badT_cons_nonparen t ts m ht h
      exact ih ts m (fun u hu => hall u (by simp [hu])) h2

/-- Consuming an open parenthesis raises the stacked-marker count. -/
lemma badT_cons_lparen (ts : List Tok) (m : Nat) :
    BadT (Tok.lparen :: ts) m → BadT ts (m + 1) := by
  rintro (⟨p, r, hdec, hcnt⟩ | hlt)
  · rcases p with _ | ⟨q, p⟩
    · simp at hdec
    · simp only [List.cons_append, List.cons.injEq] at hdec
      obtain ⟨hq, hts⟩ := hdec
      subst hq
      have hc2 : lpCount p + 1 + m ≤ rpCount p := by
        simpa [lpCount, rpCount, List.countP_cons, isLP, isRP] using hcnt
      exact Or.inl ⟨p, r, hts, by omega⟩
  · refine Or.inr ?_
    have hl2 : rpCount ts < lpCount ts + 1 + m := by
      simpa [lpCount, rpCount, List.countP_cons, isLP, isRP] using hlt
    omega

/-- Consuming a close parenthesis (with at least one marker stacked) lowers
the stacked-marker count. -/
lemma badT_cons_rparen (ts : List Tok) (m : Nat) (hm : 1 ≤ m) :
    BadT (Tok.rparen :: ts) m → BadT ts (m - 1) := by
  rintro (⟨p, r, hdec, hcnt⟩ | hlt)
  · rcases p with _ | ⟨q, p⟩
    · simp only [List.nil_append, List.cons.injEq] at hdec
      simp [lpCount, rpCount] at hcnt
      omega
    · simp only [List.cons_append, List.cons.injEq] at hdec
      obtain ⟨hq, hts⟩ := hdec
      subst hq
      have hc2 : lpCount p + m ≤ rpCount p + 1 := by
        simpa [lpCount, rpCount, List.countP_cons, isLP, isRP] using hcnt
      exact Or.inl ⟨p, r, hts, by omega⟩
  · refine Or.inr ?_
    have hl2 : rpCount ts + 1 < lpCount ts + m := by
      simpa [lpCount, rpCount, List.countP_cons, isLP, isRP] using hlt
    omega

/-- The word-number loop consumes at most the words it is given. -/
lemma numParseGo_consumed : ∀ (ws : List String) (t c k : Nat),
    (numParseGo ws t c k).2 ≤ k + ws.length := by
  intro ws
  induction ws with
  | nil => intro t c k; simp [numParseGo]
  | cons w ws ih =>
    intro t c k
    rw [numParseGo]
    cases hs : SIMPLE_NUM.lookup w with
    | some v =>
      have := ih t (c + v) (k + 1)
      show (numParseGo ws t (c + v) (k + 1)).2 ≤ k + (w :: ws).length
      simp only [List.length_cons]
      omega
    | none =>
      cases ht : TENS.lookup w with
      | some v =>
        have := ih t (c + v) (k + 1)
        show (numParseGo ws t (c + v) (k + 1)).2 ≤ k + (w :: ws).length
        simp only [List.length_cons]
        omega
      | none =>
        cases hh : HUNDREDS.lookup w with
        | some v =>
          have := ih t (c + v) (k + 1)
          show (numParseGo ws t (c + v) (k + 1)).2 ≤ k + (w :: ws).length
          simp only [List.length_cons]
          omega
        | none =>
          cases hsc : SCALES.lookup w with
          | some sc =>
            have := ih (t + (if c = 0 then 1 else c) * sc) 0 (k + 1)
            show (numParseGo ws (t + (if c = 0 then 1 else c) * sc) 0
              (k + 1)).2 ≤ k + (w :: ws).length
            simp only [List.length_cons]
            omega
          | none =>
            show ((t + c, k) : Nat × Nat).2 ≤ k + (w :: ws).length
            simp only [List.length_cons]
            omega

/-- A successful simple-number parse ends strictly inside the word list. -/
lemma parse_simple_ok_lt (ws : List String) (s : Nat) (v : Nat × Nat)
    (h : parse_simple_number_words ws s = Except.ok v) : v.2 < ws.length := by
  simp only [parse_simple_number_words] at h
  split_ifs at h with h0 h1
  have hc := numParseGo_consumed (ws.drop s) 0 0 0
  rw [List.length_drop] at hc
  injection h with h2
  subst h2
  show s + (numParseGo (ws.drop s) 0 0 0).2 - 1 < ws.length
  omega

/-- A failed simple-number parse never raises a math error. -/
lemma parse_simple_not_math (ws : List String) (s : Nat) (e : CalcErr)
    (h : parse_simple_number_words ws s = Except.error e) :
    isMathErr e = false := by
  simp only [parse_simple_number_words] at h
  split_ifs at h with h0 h1
  · injection h with h2
    subst h2
    rfl
  · injection h with h2
    subst h2
    rfl

/-- A successful fractional-descriptor parse ends strictly inside the word
list. -/
lemma parse_fractional_ok_lt (ws : List String) (s : Nat) (v : ℚ × Nat)
    (h : parse_fractional_descriptor ws s = Except.ok v) : v.2 < ws.length := by
  rw [parse_fractional_descriptor] at h
  cases hps : parse_simple_number_words ws s with
  | error e2 =>
    rw [hps] at h
    simp at h
  | ok r =>
    rw [hps] at h
    dsimp only at h
    split_ifs at h with hge
    split at h
    · injection h with h2
      subst h2
      show r.2 + 1 < ws.length
      omega
    · split at h
      · injection h with h2
        subst h2
        show r.2 + 1 < ws.length
        omega
      · split at h
        · injection h with h2
          subst h2
          show r.2 + 1 < ws.length
          omega
        · split at h
          · injection h with h2
            subst h2
            show r.2 + 1 < ws.length
            omega
          · simp at h

/-- A failed fractional-descriptor parse never raises a math error. -/
lemma parse_fractional_not_math (ws : List String) (s : Nat) (e : CalcErr)
    (h : parse_fractional_descriptor ws s = Except.error e) :
    isMathErr e = false := by
  rw [parse_fractional_descriptor] at h
  cases hps : parse_simple_number_words ws s with
  | error e2 =>
    rw [hps] at h
    injection h with h2
    subst h2
    exact parse_simple_not_math ws s e2 hps
  | ok r =>
    rw [hps] at h
    dsimp only at h
    split_ifs at h with hge
    · injection h with h2
      subst h2
      rfl
    · split at h
      · simp at h
      · split at h
        · simp at h
        · split at h
          · simp at h
          · split at h
            · simp at h
            · injection h with h2
              subst h2
              rfl

/-- A successful mixed-or-decimal parse ends strictly inside the word
list. -/
lemma parse_mixed_ok_lt (ws : List String) (s : Nat) (v : ℚ × Nat)
    (h : parse_mixed_or_decimal_number ws s = Except.ok v) : v.2 < ws.length := by
  rw [parse_mixed_or_decimal_number] at h
  cases hps : parse_simple_number_words ws s with
  | error e2 =>
    rw [hps] at h
    simp at h
  | ok r =>
    rw [hps] at h
    dsimp only at h
    split_ifs at h with hand
    · cases hf : parse_fractional_descriptor ws (r.2 + 1 + 1) with
      | error e2 =>
        rw [hf] at h
        simp at h
      | ok f =>
        rw [hf] at h
        injection h with h2
        subst h2
        exact parse_fractional_ok_lt ws (r.2 + 1 + 1) f hf
    · injection h with h2
      subst h2
      exact parse_simple_ok_lt ws s r hps

/-- A failed mixed-or-decimal parse never raises a math error. -/
lemma parse_mixed_not_math (ws : List String) (s : Nat) (e : CalcErr)
    (h : parse_mixed_or_decimal_number ws s = Except.error e) :
    isMathErr e = false := by
  rw [parse_mixed_or_decimal_number] at h
  cases hps : parse_simple_number_words ws s with
  | error e2 =>
    rw [hps] at h
    injection h with h2
    subst h2
    exact parse_simple_not_math ws s e2 hps
  | ok r =>
    rw [hps] at h
    dsimp only at h
    split_ifs at h with hand
    · cases hf : parse_fractional_descriptor ws (r.2 + 1 + 1) with
      | error e2 =>
        rw [hf] at h
        injection h with h2
        subst h2
        exact parse_fractional_not_math ws (r.2 + 1 + 1) e2 hf
      | ok f =>
        rw [hf] at h
        simp at h

/-- Elements of a prefix no longer than the `takeWhile` run satisfy the
predicate. -/
lemma take_of_le_takeWhile {α : Type} (p : α → Bool) :
    ∀ (ts : List α) (k : Nat), k ≤ (ts.takeWhile p).length →
      ∀ t ∈ ts.take k, p t = true := by
  intro ts
  induction ts with
  | nil => intro k _ t ht; simp at ht
  | cons x ts ih =>
    intro k hk t ht
    cases k with
    | zero => simp at ht
    | succ k =>
      cases hpx : p x with
      | false =>
        rw [List.takeWhile_cons, hpx] at hk
        simp at hk
      | true =>
        rw [List.takeWhile_cons, hpx] at hk
        simp only [if_true, List.length_cons, Nat.succ_le_succ_iff] at hk
        rw [List.take_succ_cons] at ht
        rcases List.mem_cons.mp ht with h1 | h2
        · rw [h1]
          exact hpx
        · exact ih k hk t h2

/-- A word token is not a parenthesis. -/
lemma isWordTok_noParen (t : Tok) (h : isWordTok t = true) :
    noParen t = true := by
  cases t <;> simp_all [isWordTok, noParen, isLP, isRP]

/-- A token collected before "по" is not a parenthesis. -/
lemma untilPoPred_noParen (t : Tok) (h : untilPoPred t = true) :
    noParen t = true := by
  cases t <;> simp_all [untilPoPred, isWordTok, noParen, isLP, isRP]

/-- Badness is preserved by the "из" skip. -/
lemma badT_skipIz (ts : List Tok) (m : Nat) (h : BadT ts m) :
    BadT (skipIz ts) m := by
  rcases ts with _ | ⟨t, r⟩
  · exact h
  · cases t with
    | word w =>
      simp only [skipIz]
      split_ifs with hw
      · exact badT_cons_nonparen (Tok.word w) r m rfl h
      · exact h
    | op s => exact h
    | func f => exact h
    | comb k => exact h
    | num q => exact h
    | lparen => exact h
    | rparen => exact h

/-- The "из" skip never lengthens the token list. -/
lemma skipIz_length (ts : List Tok) : (skipIz ts).length ≤ ts.length := by
  rcases ts with _ | ⟨t, r⟩
  · exact le_rfl
  · cases t with
    | word w =>
      simp only [skipIz]
      split_ifs with hw
      · simp
      · exact le_rfl
    | op s => exact le_rfl
    | func f => exact le_rfl
    | comb k => exact le_rfl
    | num q => exact le_rfl
    | lparen => exact le_rfl
    | rparen => exact le_rfl

/-- Stacking an operator leaves the open-marker count unchanged. -/
lemma stLP_cons_op (o : String) (st : List SEl) :
    stLP (SEl.op o :: st) = stLP st := by
  simp [stLP, List.countP_cons]

/-- Stacking a function leaves the open-marker count unchanged. -/
lemma stLP_cons_func (f : String) (st : List SEl) :
    stLP (SEl.func f :: st) = stLP st := by
  simp [stLP, List.countP_cons]

/-- Stacking an open marker raises the open-marker count. -/
lemma stLP_cons_lparen (st : List SEl) :
    stLP (SEl.lparen :: st) = stLP st + 1 := by
  simp [stLP, List.countP_cons]

/-- With no tokens left, badness means a leftover open marker, so the final
flush fails with the unclosed-parenthesis parse error. -/
lemma shuntGo_bad_nil (fuel : Nat) (out : List Rpn) (st : List SEl)
    (prev : Bool) (h : BadT [] (stLP st)) :
    ∃ e, shuntGo fuel [] out st prev = Except.error e ∧ isMathErr e = false := by
  have hm : 1 ≤ stLP st := by
    rcases h with ⟨p, r, hdec, _⟩ | hlt
    · exact absurd hdec (by simp)
    · simpa [rpCount, lpCount] using hlt
  cases fuel with
  | zero => exact ⟨_, flushFinal_err st out hm, rfl⟩
  | succ f => exact ⟨_, flushFinal_err st out hm, rfl⟩

/-- Main invariant: a bad token stream (relative to the stacked open markers)
always drives the shunting loop into an error, and that error is never a
math error. -/
lemma shuntGo_bad : ∀ (fuel : Nat) (ts : List Tok) (out : List Rpn)
    (st : List SEl) (prev : Bool), ts.length ≤ fuel → BadT ts (stLP st) →
    ∃ e, shuntGo fuel ts out st prev = Except.error e ∧ isMathErr e = false := by
  intro fuel
  induction fuel with
  | zero =>
    intro ts out st prev hlen hbad
    rcases ts with _ | ⟨t, rest⟩
    · exact shuntGo_bad_nil 0 out st prev hbad
    · simp only [List.length_cons] at hlen
      omega
  | succ fuel ih =>
    intro ts out st prev hlen hbad
    rcases ts with _ | ⟨t, rest⟩
    · exact shuntGo_bad_nil (fuel + 1) out st prev hbad
    · have hrest : rest.length ≤ fuel := by
        simp only [List.length_cons] at hlen
        omega
      cases t with
      | word w =>
        rw [shuntGo]
        cases hp : parse_mixed_or_decimal_number (wordSeq (Tok.word w :: rest)) 0 with
        | ok r =>
          dsimp only
          apply ih
          · rw [List.length_drop]
            simp only [List.length_cons]
            omega
          · apply badT_drop_nonparen
            · intro t2 ht2
              have hlt := parse_mixed_ok_lt _ _ _ hp
              have hle : r.2 + 1 ≤
                  ((Tok.word w :: rest).takeWhile isWordTok).length := by
                have hlm : (wordSeq (Tok.word w :: rest)).length =
                    ((Tok.word w :: rest).takeWhile isWordTok).length := by
                  simp [wordSeq]
                omega
              exact isWordTok_noParen t2
                (take_of_le_takeWhile isWordTok _ _ hle t2 ht2)
            · exact hbad
        | error e1 =>
          cases e1 with
          | parse msg =>
            dsimp only
            cases hop : opFallbackSym w with
            | some sym =>
              dsimp only
              apply ih
              · exact hrest
              · exact badT_cons_nonparen (Tok.word w) rest (stLP st) rfl hbad
            | none =>
              dsimp only
              exact ⟨_, rfl, rfl⟩
          | math msg =>
            have hnm := parse_mixed_not_math _ _ _ hp
            simp [isMathErr] at hnm
          | index msg =>
            dsimp only
            exact ⟨_, rfl, rfl⟩
      | num q =>
        rw [shuntGo]
        apply ih
        · exact hrest
        · exact badT_cons_nonparen (Tok.num q) rest (stLP st) rfl hbad
      | op s =>
        rw [shuntGo]
        apply ih
        · exact hrest
        · rw [stLP_cons_op, stLP_popForOp]
          exact badT_cons_nonparen (Tok.op s) rest (stLP st) rfl hbad
      | func f =>
        rw [shuntGo]
        apply ih
        · exact hrest
        · rw [stLP_cons_func]
          exact badT_cons_nonparen (Tok.func f) rest (stLP st) rfl hbad
      | comb kind =>
        rw [shuntGo]
        dsimp only
        have hb1 : BadT rest (stLP st) :=
          badT_cons_nonparen (Tok.comb kind) rest (stLP st) rfl hbad
        have hb2 : BadT (skipIz rest) (stLP st) := badT_skipIz rest (stLP st) hb1
        have hwords : ∀ t2 ∈ (skipIz rest).take
            (wordsUntilPo (skipIz rest)).length, noParen t2 = true := by
          intro t2 ht2
          refine untilPoPred_noParen t2
            (take_of_le_takeWhile untilPoPred _ _ ?_ t2 ht2)
          simp [wordsUntilPo]
        have hb3 : BadT ((skipIz rest).drop
            (wordsUntilPo (skipIz rest)).length) (stLP st) :=
          badT_drop_nonparen _ _ _ hwords hb2
        have hlen2 : ((skipIz rest).drop
            (wordsUntilPo (skipIz rest)).length).length ≤ fuel := by
          rw [List.length_drop]
          have hsk := skipIz_length rest
          omega
        split_ifs with hemp
        · exact ⟨_, rfl, rfl⟩
        · cases hp : parse_mixed_or_decimal_number (wordsUntilPo (skipIz rest)) 0 with
          | error e1 =>
            dsimp only
            exact ⟨e1, rfl, parse_mixed_not_math _ _ _ hp⟩
          | ok nv =>
            dsimp only
            cases hr2 : (skipIz rest).drop (wordsUntilPo (skipIz rest)).length with
            | nil =>
              dsimp only
              apply ih
              · simp
              · rw [hr2] at hb3
                exact hb3
            | cons t2 rest3 =>
              cases t2 with
              | word pw =>
                dsimp only
                split_ifs with hpw hemp2
                · exact ⟨_, rfl, rfl⟩
                · cases hp2 : parse_mixed_or_decimal_number (wordSeq rest3) 0 with
                  | error e2 =>
                    dsimp only
                    exact ⟨e2, rfl, parse_mixed_not_math _ _ _ hp2⟩
                  | ok kv =>
                    dsimp only
                    apply ih
                    · rw [List.length_drop]
                      rw [hr2] at hlen2
                      simp only [List.length_cons] at hlen2
                      omega
                    · have hb4 : BadT (Tok.word pw :: rest3) (stLP st) := by
                        rw [← hr2]
                        exact hb3
                      have hb5 : BadT rest3 (stLP st) :=
                        badT_cons_nonparen (Tok.word pw) rest3 (stLP st) rfl hb4
                      apply badT_drop_nonparen
                      · intro u hu
                        refine isWordTok_noParen u
                          (take_of_le_takeWhile isWordTok _ _ ?_ u hu)
                        simp [wordSeq]
                      · exact hb5
                · apply ih
                  · rw [hr2] at hlen2
                    exact hlen2
                  · rw [← hr2]
                    exact hb3
              | op s2 =>
                dsimp only
                apply ih
                · rw [hr2] at hlen2
                  exact hlen2
                · rw [← hr2]
                  exact hb3
              | func f2 =>
                dsimp only
                apply ih
                · rw [hr2] at hlen2
                  exact hlen2
                · rw [← hr2]
                  exact hb3
              | comb k2 =>
                dsimp only
                apply ih
                · rw [hr2] at hlen2
                  exact hlen2
                · rw [← hr2]
                  exact hb3
              | num q2 =>
                dsimp only
                apply ih
                · rw [hr2] at hlen2
                  exact hlen2
                · rw [← hr2]
                  exact hb3
              | lparen =>
                dsimp only
                apply ih
                · rw [hr2] at hlen2
                  exact hlen2
                · rw [← hr2]
                  exact hb3
              | rparen =>
                dsimp only
                apply ih
                · rw [hr2] at hlen2
                  exact hlen2
                · rw [← hr2]
                  exact hb3
      | lparen =>
        rw [shuntGo]
        apply ih
        · exact hrest
        · rw [stLP_cons_lparen]
          exact badT_cons_lparen rest (stLP st) hbad
      | rparen =>
        rw [shuntGo]
        cases hpop : popUntilParen st with
        | none =>
          dsimp only
          exact ⟨_, rfl, rfl⟩
        | some pr =>
          dsimp only
          have hsome := popUntilParen_some st pr hpop
          apply ih
          · exact hrest
          · have hm : 1 ≤ stLP st := by omega
            have hb2 := badT_cons_rparen rest (stLP st) hm hbad
            have heq : stLP pr.2 = stLP st - 1 := by omega
            rw [heq]
            exact hb2

/-- C8 counterexample: the token stream `пять и )` has a close parenthesis
with no earlier open parenthesis, yet the expression builder fails with the
number parser's escaping `IndexError` (the error-message indexing past the
word list), not with a `ParseError`; the same error reaches the caller end
to end for `пять и скобка закрывается`. -/
theorem C8_counterexample :
    shunting_yard_with_numbers [Tok.word "пять", Tok.word "и", Tok.rparen] =
        Except.error (CalcErr.index "list index out of range") ∧
      lpCount [Tok.word "пять", Tok.word "и", Tok.rparen] = 0 ∧
      rpCount [Tok.word "пять", Tok.word "и", Tok.rparen] = 1 ∧
      calcRu "пять и скобка закрывается" =
        Except.error (CalcErr.index "list index out of range") := by
  refine ⟨by decide, rfl, rfl, by decide⟩

/-- C8 (amended): on every token stream containing a close-parenthesis token
with no matching open-parenthesis before it, and on every token stream whose
open parentheses outnumber its close parentheses, the expression builder
fails with an error — never a math error, and no postfix sequence is
produced (though the error is not always a `ParseError`); on the minimal
purely-parenthetical streams it fails with the two unbalanced-parentheses
`ParseError`s of the source. -/
theorem C8_unbalanced_amended :
    (∀ ts : List Tok,
        ((∃ p r, ts = p ++ Tok.rparen :: r ∧ lpCount p ≤ rpCount p) ∨
            rpCount ts < lpCount ts) →
          ∃ e, shunting_yard_with_numbers ts = Except.error e ∧
            isMathErr e = false) ∧
      shunting_yard_with_numbers [Tok.rparen] =
        Except.error (CalcErr.parse
          "Несбалансированные скобки (найдена закрывающая без открывающей)") ∧
      shunting_yard_with_numbers [Tok.lparen] =
        Except.error (CalcErr.parse
          "Несбалансированные скобки (незакрытая скобка)") := by
  refine ⟨?_, by decide, by decide⟩
  intro ts h
  have hb : BadT ts (stLP ([] : List SEl)) := by
    rcases h with ⟨p, r, hdec, hcnt⟩ | hlt
    · exact Or.inl ⟨p, r, hdec, by simpa [stLP] using hcnt⟩
    · exact Or.inr (by simpa [stLP] using hlt)
  exact shuntGo_bad ts.length ts [] [] false le_rfl hb

/-- C8 witness: a close parenthesis before any open parenthesis (even with
balanced totals) drives the builder into a non-math error. -/
theorem C8_unbalanced_amended_witness :
    ∃ e, shunting_yard_with_numbers [Tok.rparen, Tok.lparen] =
        Except.error e ∧ isMathErr e = false :=
  C8_unbalanced_amended.1 [Tok.rparen, Tok.lparen]
    (Or.inl ⟨[], [Tok.lparen], rfl, by decide⟩)

end CalcRu
